import Mathlib

/-!
Verification of the file-organizer program (`src/organizer.py`).

The development shallowly embeds the program: file names are `String`s,
paths are lists of name components relative to the organized root
directory, and the filesystem is a finite list of entries (files and
directories) whose list order models the platform's enumeration order.
Python's string operations (`str.lower`, `str.startswith`, `str.endswith`,
`in`, `pathlib.PurePath.stem/suffix`) are modelled by executable functions
on the character lists of the strings.
-/

namespace FileOrg

/-! ## String helpers (models of the Python string operations) -/

/-- Model of Python `str.lower` (ASCII case folding, as used on extensions). -/

def pyLower (s : String) : String := ⟨s.data.map Char.toLower⟩

/-- Model of Python `s.startswith(pre)`. -/

def startsWithS (s pre : String) : Bool := pre.data.isPrefixOf s.data

/-- Model of Python `s.endswith(post)`. -/

def endsWithS (s post : String) : Bool := post.data.isSuffixOf s.data

/-- Model of Python `p in s` (substring test) on character lists. -/

def infixOfS (p : List Char) : List Char → Bool
  | [] => p.isPrefixOf []
  | c :: rest => p.isPrefixOf (c :: rest) || infixOfS p rest

/-- Model of Python `s[n:]`. -/

def dropS (s : String) (n : Nat) : String := ⟨s.data.drop n⟩

/-- Model of Python `s[:-n]` for `n ≤ len s`. -/

def dropRightS (s : String) (n : Nat) : String := ⟨s.data.take (s.data.length - n)⟩

/-- Split a character list at its last dot: returns the part before the
last `'.'` and the part from the last `'.'` on, or `none` when no dot
occurs. -/

def lastDotSplit : List Char → Option (List Char × List Char)
  | [] => none
  | c :: rest =>
    match lastDotSplit rest with
    | some (b, a) => some (c :: b, a)
    | none => if c = '.' then some ([], c :: rest) else none

/-- Model of `pathlib.PurePath.stem`/`.suffix` on a file name: the suffix
is the final extension including the dot, and is empty when the last dot
is at position 0, is the final character, or does not occur. -/

def pySplitName (nm : String) : String × String :=
  match lastDotSplit nm.data with
  | some (b, a) =>
    if b ≠ [] ∧ a.length ≥ 2 then (⟨b⟩, ⟨a⟩) else (nm, "")
  | none => (nm, "")

/-- Model of `pathlib.PurePath.stem`. -/

def pyStem (nm : String) : String := (pySplitName nm).1

/-- Model of `pathlib.PurePath.suffix`. -/

def pySuffix (nm : String) : String := (pySplitName nm).2

/-! ## Category resolver (`FileOrganizer.get_category`, lines 88-93) -/

/-- The built-in default category table (`DEFAULT_CATEGORIES`, lines 10-19). -/

def DEFAULT_CATEGORIES : List (String × List String) :=
  [ ("Images", [".jpg", ".jpeg", ".png", ".gif", ".bmp", ".svg", ".webp", ".ico", ".tiff"]),
    ("Documents", [".pdf", ".doc", ".docx", ".txt", ".xlsx", ".xls", ".pptx", ".ppt", ".odt", ".rtf"]),
    ("Videos", [".mp4", ".avi", ".mkv", ".mov", ".flv", ".wmv", ".webm", ".m4v"]),
    ("Audio", [".mp3", ".wav", ".flac", ".aac", ".ogg", ".wma", ".m4a"]),
    ("Archives", [".zip", ".rar", ".7z", ".tar", ".gz", ".bz2", ".xz"]),
    ("Code", [".py", ".js", ".html", ".css", ".java", ".cpp", ".c", ".h", ".json", ".xml", ".yaml", ".yml"]),
    ("Executables", [".exe", ".msi", ".dmg", ".pkg", ".deb", ".rpm", ".app"]),
    ("Books", [".epub", ".mobi", ".azw", ".azw3"]) ]

/-- Model of `FileOrganizer.get_category`: lowercase the extension, scan
the category map in iteration order, return the first category whose
extension list contains it, else the literal fallback `"Others"`. -/

def get_category (cats : List (String × List String)) (ext : String) : String :=
  match cats.find? (fun ce => ce.2.contains (pyLower ext)) with
  | some ce => ce.1
  | none => "Others"

/-! ## Ignore matcher (`FileOrganizer.should_ignore`, lines 71-86) -/

/-- Model of the per-pattern test inside `should_ignore`: a leading `*`
pattern tests the file name's suffix, otherwise a trailing `*` pattern
tests its prefix, otherwise the pattern is tested as a substring. -/

def matchesPattern (fileName pat : String) : Bool :=
  if startsWithS pat "*" then endsWithS fileName (dropS pat 1)
  else if endsWithS pat "*" then startsWithS fileName (dropRightS pat 1)
  else infixOfS pat.data fileName.data

/-- Model of `FileOrganizer.should_ignore`: first-match scan of the
pattern list. -/

def should_ignore (fileName : String) : List String → Bool
  | [] => false
  | p :: ps => if matchesPattern fileName p then true else should_ignore fileName ps

/-- The implicit, unconditional ignore entries prepended by
`load_ignore_patterns` (line 55). -/

def builtinIgnores : List String := [".organizer_log.json", ".organizerignore"]

/-! ## Decimal representation: `Nat.repr` is injective -/

/-- Decimal digit characters of a natural number, most significant first. -/

def reprAux (n : Nat) : List Char :=
  if _h : n < 10 then [Nat.digitChar n]
  else reprAux (n / 10) ++ [Nat.digitChar (n % 10)]
decreasing_by
  exact Nat.div_lt_self (by omega) (by omega)

/-- Inverse digit reading used to show decimal strings are injective. -/

def decodeDigit (c : Char) : Nat := c.toNat - 48

/-- Read a most-significant-first decimal digit string back to a number. -/

def decodeRepr : List Char → Nat
  | [] => 0
  | c :: cs => decodeDigit c * 10 ^ cs.length + decodeRepr cs

/-! ## Filesystem model

A path is the list of name components below the organized root directory
(the root itself is `[]`). The filesystem is a list of entries; its list
order models the platform's directory enumeration order. -/

abbrev Path := List String

structure Entry where
  path : Path
  isDir : Bool
deriving DecidableEq, Repr

abbrev FS := List Entry

def pathsOf (fs : FS) : List Path := fs.map (fun e => e.path)

/-- Model of `Path.exists`. -/

def existsPath (fs : FS) (p : Path) : Bool := fs.any (fun e => e.path == p)

/-- There is a plain-file entry at `p`. -/

def isFileAt (fs : FS) (p : Path) : Bool := fs.any (fun e => e.path == p && !e.isDir)

/-- Model of `Path.is_dir`. -/

def isDirAt (fs : FS) (p : Path) : Bool := fs.any (fun e => e.path == p && e.isDir)

/-- Model of `Path.iterdir`: the immediate children of directory `d`, in
enumeration order. -/

def childrenOf (fs : FS) (d : Path) : List Entry :=
  fs.filter (fun e => !(e.path == ([] : Path)) && e.path.dropLast == d)

/-- Model of `Path.name` on an entry path. -/

def nameOf (p : Path) : String := p.getLastD ""

def removeEntry (fs : FS) (p : Path) : FS := fs.filter (fun e => !(e.path == p))

/-- Model of a POSIX rename (`shutil.move` onto a non-directory target):
the source entry disappears and a plain file appears at the destination,
silently replacing any file already there. -/

def moveFile (fs : FS) (src dst : Path) : FS :=
  (fs.filter (fun e => !(e.path == src) && !(e.path == dst))) ++ [⟨dst, false⟩]

def logName : String := ".organizer_log.json"

/-- The fixed log file location `<root>/.organizer_log.json`. -/

def logPath : Path := [logName]

/-- Pathwise distinctness of the entry list. -/

def nodupPaths : List Path → Bool
  | [] => true
  | p :: rest => !(rest.contains p) && nodupPaths rest

/-- Well-formedness of a filesystem: entry paths are distinct and nonempty,
and every proper prefix of an entry path is a directory. -/

def WF (fs : FS) : Bool :=
  nodupPaths (pathsOf fs) &&
  fs.all (fun e =>
    !(e.path == ([] : Path)) &&
    e.path.dropLast.inits.all (fun q => q == ([] : Path) || isDirAt fs q))

/-! ## Path allocator (`organize_file` lines 144-152) -/

/-- The duplicate-renaming candidate `stem_k + extension`. -/

def candName (stem ext : String) (k : Nat) : String :=
  stem ++ "_" ++ Nat.repr k ++ ext

/-- The collision loop of `organize_file`: starting at counter `k`, return
the first candidate that does not exist in the category folder. The fuel
argument bounds the search; `allocate` supplies enough fuel for the search
to always succeed on the finite filesystem. -/

def allocGo (fs : FS) (cat stem ext : String) : Nat → Nat → Option String
  | 0, _ => none
  | fuel + 1, k =>
    let cand := candName stem ext k
    if existsPath fs [cat, cand] then allocGo fs cat stem ext fuel (k + 1)
    else some cand

/-- Destination-name allocation for a file named `nm` moving into category
folder `cat`: first the unchanged name, then `stem_1+ext`, `stem_2+ext`, …
until a free name is found. -/

def allocate (fs : FS) (cat nm : String) : Option String :=
  if existsPath fs [cat, nm] then
    allocGo fs cat (pyStem nm) (pySuffix nm) (fs.length + 1) 1
  else some nm

def demoC3a : FS := [⟨["Documents"], true⟩, ⟨["Documents", "a.txt"], false⟩]

def demoC3b : FS := demoC3a ++ [⟨["Documents", "a_1.txt"], false⟩]

/-! ## Organize engine (`FileOrganizer.organize_directory` / `organize_file`) -/

def ignoreName : String := ".organizerignore"

/-- An operation record `{old_path, new_path, timestamp}` (lines 171-175).
Timestamps are modelled by a per-run counter. -/

structure OpRec where
  old : Path
  new : Path
  ts : Nat
deriving DecidableEq, Repr

/-- Run configuration: the loaded category map, the `--recursive` and
`--dry-run` flags, the user-supplied ignore patterns, and an oracle
injecting `shutil.move` failures (filesystem errors). -/

structure Cfg where
  categories : List (String × List String)
  recursive : Bool
  dryRun : Bool
  userPatterns : List String
  moveFail : Path → Path → Bool

/-- The full ignore pattern list: `load_ignore_patterns` always prepends
the log file name and ignore file name (line 55). -/

def Cfg.patterns (cfg : Cfg) : List String := logName :: ignoreName :: cfg.userPatterns

/-- Mutable run state: the filesystem, the in-memory operation list, the
timestamp counter, and the dry-run report list. -/

structure OState where
  fs : FS
  ops : List OpRec
  clock : Nat
  reports : List (Path × Path)
deriving DecidableEq, Repr

/-- Model of `FileOrganizer.organize_file` (lines 132-180): resolve the
category, create the category folder unless dry-run (`none` models the
uncaught `FileExistsError` when the category path exists as a plain file),
allocate a collision-free destination, then either report (dry-run) or
move and record; a failed move reports `false` and records nothing. -/

def organize_file (cfg : Cfg) (st : OState) (p : Path) : Option (OState × Bool) :=
  let nm := nameOf p
  let ext := pySuffix nm
  let cat := get_category cfg.categories ext
  let mkres : Option FS :=
    if cfg.dryRun then some st.fs
    else if isDirAt st.fs [cat] then some st.fs
    else if existsPath st.fs [cat] then none
    else some (st.fs ++ [⟨[cat], true⟩])
  match mkres with
  | none => none
  | some fs1 =>
    match allocate fs1 cat nm with
    | none => none
    | some newNm =>
      let dst := [cat, newNm]
      if cfg.dryRun then
        some ({ st with reports := st.reports ++ [(p, dst)] }, true)
      else if !(isFileAt fs1 p) || cfg.moveFail p dst then
        some ({ st with fs := fs1 }, false)
      else
        some ({ fs := moveFile fs1 p dst,
                ops := st.ops ++ [⟨p, dst, st.clock⟩],
                clock := st.clock + 1,
                reports := st.reports }, true)

/-- Model of the loop of `organize_directory` (lines 95-130) over a
snapshot of the current directory's listing. A child directory is skipped
when it is a direct child of the root with a category name, recursed into
(snapshotting its children at that moment, as the code does) when
recursion is enabled and it is a direct child of the root, and otherwise
ignored; a child file is skipped when an ignore pattern matches and
otherwise handed to `organize_file`, counting successes. The fuel bounds
the nesting of calls only; the code's recursion always terminates (it
descends at most one level) and `runOrganize` supplies ample fuel. -/

def organizeItemsF (cfg : Cfg) : Nat → OState → Path → List Entry → Option (OState × Nat)
  | 0, _, _, _ => none
  | _ + 1, st, _, [] => some (st, 0)
  | fuel + 1, st, cd, e :: rest =>
    if e.isDir then
      if e.path.dropLast == ([] : Path) &&
          (cfg.categories.map Prod.fst).contains (nameOf e.path) then
        organizeItemsF cfg fuel st cd rest
      else if cfg.recursive && e.path.dropLast == ([] : Path) then
        match organizeItemsF cfg fuel st e.path (childrenOf st.fs e.path) with
        | none => none
        | some (st1, n1) =>
          match organizeItemsF cfg fuel st1 cd rest with
          | none => none
          | some (st2, n2) => some (st2, n1 + n2)
      else organizeItemsF cfg fuel st cd rest
    else
      if should_ignore (nameOf e.path) cfg.patterns then
        organizeItemsF cfg fuel st cd rest
      else
        match organize_file cfg st e.path with
        | none => none
        | some (st1, ok) =>
          match organizeItemsF cfg fuel st1 cd rest with
          | none => none
          | some (st2, n) => some (st2, (if ok then 1 else 0) + n)

/-- Fuel amply covering any call chain of the traversal: the root listing,
one nested subdirectory listing, and the entry overheads. -/

def orgFuel (fs : FS) : Nat := 3 * fs.length + 8

/-- Model of `organize_directory` started at directory `cd`: snapshot the
children, then process them. -/

def organizeDirF (cfg : Cfg) (fuel : Nat) (st : OState) (cd : Path) :
    Option (OState × Nat) :=
  organizeItemsF cfg fuel st cd (childrenOf st.fs cd)

/-- A directory together with its persisted run log: `log` models the
presence and parsed content of `.organizer_log.json`, whose plain file
entry is kept in `fs`. -/

structure World where
  fs : FS
  log : Option (List OpRec)
deriving DecidableEq, Repr

/-- Model of `FileOrganizer.run` (lines 197-226): organize from the root,
then `save_log` (lines 182-195) persists the operation list unless the run
was dry or recorded nothing. Returns the final world, run state, and
processed-file count. -/

def runOrganize (cfg : Cfg) (w : World) : Option (World × OState × Nat) :=
  match organizeDirF cfg (orgFuel w.fs) ⟨w.fs, [], 0, []⟩ [] with
  | none => none
  | some (st, n) =>
    if cfg.dryRun || st.ops.isEmpty then some ({ w with fs := st.fs }, st, n)
    else some ({ fs := if existsPath st.fs logPath then st.fs
                       else st.fs ++ [⟨logPath, false⟩],
                 log := some st.ops }, st, n)

/-! ## Undo engine (`undo_organization`, lines 229-289) -/

inductive UndoResult where
  | noLog
  | emptyLog
  | done (restored : Nat)
deriving DecidableEq, Repr

/-- Create each missing directory of the given prefix chain in order,
stopping with failure when a prefix exists as a plain file (the
`FileExistsError` of `mkdir`); directories created before the failure
remain. -/

def mkdirsAux (fs : FS) : List Path → FS × Bool
  | [] => (fs, true)
  | q :: qs =>
    if isDirAt fs q then mkdirsAux fs qs
    else if existsPath fs q then (fs, false)
    else mkdirsAux (fs ++ [⟨q, true⟩]) qs

/-- Model of `old_path.parent.mkdir(parents=True, exist_ok=True)`
(line 266). -/

def mkdirParents (fs : FS) (p : Path) : FS × Bool :=
  mkdirsAux fs (p.inits.filter (fun q => !(q == ([] : Path))))

/-- Model of one iteration of the undo loop (lines 256-273): skip when the
recorded destination no longer exists; recreate the original parent
directories; then `shutil.move` back — when the original path now exists
as a directory the file is moved inside it (or the move fails when that
inner name is taken), faithfully to `shutil.move`; count successes. -/

def restoreStep (rf : OpRec → Bool) (fs : FS) (c : Nat) (r : OpRec) : FS × Nat :=
  if !(existsPath fs r.new) then (fs, c)
  else
    let md := mkdirParents fs r.old.dropLast
    if !md.2 then (md.1, c)
    else if rf r then (md.1, c)
    else if isDirAt md.1 r.old then
      let dst := r.old ++ [nameOf r.new]
      if existsPath md.1 dst then (md.1, c)
      else (moveFile md.1 r.new dst, c + 1)
    else (moveFile md.1 r.new r.old, c + 1)

/-- The undo loop over the (already reversed) operation list, carrying the
filesystem and the success count. -/

def restoresLoop (rf : OpRec → Bool) (fs : FS) (c : Nat) : List OpRec → FS × Nat
  | [] => (fs, c)
  | r :: rest =>
    restoresLoop rf (restoreStep rf fs c r).1 (restoreStep rf fs c r).2 rest

/-- Model of the empty-folder cleanup (lines 276-282): over a snapshot of
the root's children, remove every directory that is empty when reached. -/

def cleanupGo (fs : FS) : List Entry → FS
  | [] => fs
  | e :: rest =>
    if isDirAt fs e.path && (childrenOf fs e.path).isEmpty then
      cleanupGo (removeEntry fs e.path) rest
    else cleanupGo fs rest

def cleanupEmptyRootDirs (fs : FS) : FS := cleanupGo fs (childrenOf fs [])

/-- Model of `undo_organization`: no-op without a log or with an empty
operation list; otherwise replay the records in reverse, clean up empty
root directories, and delete the log file (`uf` injects the non-fatal
unlink failure; `rf` injects per-record restore failures). -/

def undoRun (rf : OpRec → Bool) (uf : Bool) (w : World) : World × UndoResult :=
  match w.log with
  | none => (w, UndoResult.noLog)
  | some ops =>
    if ops.isEmpty then (w, UndoResult.emptyLog)
    else
      let rl := restoresLoop rf w.fs 0 ops.reverse
      let fs2 := cleanupEmptyRootDirs rl.1
      if uf then ({ fs := fs2, log := w.log }, UndoResult.done rl.2)
      else ({ fs := removeEntry fs2 logPath, log := none }, UndoResult.done rl.2)

/-- A concrete live run state for the C7 witness. -/

def c7cfg : Cfg := ⟨DEFAULT_CATEGORIES, false, false, [], fun _ _ => false⟩

def c7cfgFail : Cfg := ⟨DEFAULT_CATEGORIES, false, false, [], fun _ _ => true⟩

def c7st : OState := ⟨[⟨["a.txt"], false⟩], [], 0, []⟩

def c6cfg : Cfg := ⟨DEFAULT_CATEGORIES, false, true, [], fun _ _ => false⟩

def c6fs : FS := [⟨["photo.jpg"], false⟩, ⟨["notes.txt"], false⟩, ⟨["archive.zip"], false⟩]

def c6st : OState :=
  ⟨c6fs, [], 0,
   [(["photo.jpg"], ["Images", "photo.jpg"]),
    (["notes.txt"], ["Documents", "notes.txt"]),
    (["archive.zip"], ["Archives", "archive.zip"])]⟩

/-! ## Claim C2: directory handling during traversal -/

def c2cfg : Cfg := ⟨DEFAULT_CATEGORIES, true, false, [], fun _ _ => false⟩

def c2fs : FS :=
  [⟨["sub"], true⟩, ⟨["sub", "Images"], true⟩, ⟨["sub", "Images", "x.jpg"], false⟩]

/-- The filesystem evolutions performed by a live organizing run: an
interleaving of root-level category-folder creations and recorded moves,
each move taking an existing file to a fresh length-2 destination inside
an existing root-level folder. -/

inductive Evolves : FS → List OpRec → FS → Prop where
  | refl (fs : FS) : Evolves fs [] fs
  | mkdir {fs fs2 : FS} {ops : List OpRec} (p : Path) :
      p.length = 1 → p ≠ logPath → existsPath fs p = false →
      Evolves (fs ++ [⟨p, true⟩]) ops fs2 → Evolves fs ops fs2
  | step {fs fs2 : FS} {ops : List OpRec} (r : OpRec) :
      isFileAt fs r.old = true → existsPath fs r.new = false →
      r.new.length = 2 → isDirAt fs r.new.dropLast = true → r.old ≠ logPath →
      Evolves (moveFile fs r.old r.new) ops fs2 → Evolves fs (r :: ops) fs2

def c1cfg : Cfg := ⟨DEFAULT_CATEGORIES, false, false, [], fun _ _ => false⟩

def c1fs : FS := [⟨["Images"], false⟩, ⟨["photo.jpg"], false⟩]

def c1wcfg : Cfg := ⟨DEFAULT_CATEGORIES, false, false, [], fun _ _ => false⟩

def c1wfs : FS := [⟨["photo.jpg"], false⟩]

def c1wWorld : World :=
  ⟨[⟨["Images"], true⟩, ⟨["Images", "photo.jpg"], false⟩, ⟨logPath, false⟩],
   some [⟨["photo.jpg"], ["Images", "photo.jpg"], 0⟩]⟩

def c1wState : OState :=
  ⟨[⟨["Images"], true⟩, ⟨["Images", "photo.jpg"], false⟩],
   [⟨["photo.jpg"], ["Images", "photo.jpg"], 0⟩], 1, []⟩

/-! ## Character and string lemmas -/

theorem toNat_ofNat_valid {n : Nat} (h : n.isValidChar) : (Char.ofNat n).toNat = n := by
  simp [Char.ofNat, h, Char.ofNatAux, Char.toNat, UInt32.toNat, BitVec.toNat_ofNatLt]

theorem char_toLower_idem (c : Char) : c.toLower.toLower = c.toLower := by
  unfold Char.toLower
  by_cases h : c.toNat ≥ 65 ∧ c.toNat ≤ 90
  · rw [if_pos h]
    have hval : (c.toNat + 32).isValidChar := by
      constructor
      omega
    rw [toNat_ofNat_valid hval]
    rw [if_neg (by omega)]
  · rw [if_neg h, if_neg h]

theorem char_toLower_not_upper (c : Char) :
    ¬ (65 ≤ c.toLower.toNat ∧ c.toLower.toNat ≤ 90) := by
  unfold Char.toLower
  by_cases h : c.toNat ≥ 65 ∧ c.toNat ≤ 90
  · rw [if_pos h]
    have hval : (c.toNat + 32).isValidChar := by
      constructor
      omega
    rw [toNat_ofNat_valid hval]
    omega
  · rw [if_neg h]
    omega

theorem pyLower_idem (s : String) : pyLower (pyLower s) = pyLower s := by
  unfold pyLower
  simp only [List.map_map]
  congr 1
  apply List.map_congr_left
  intro c _
  exact char_toLower_idem c

theorem pyLower_ne_of_upper_mem {e : String} {ch : Char} (hch : ch ∈ e.data)
    (hup : 65 ≤ ch.toNat ∧ ch.toNat ≤ 90) (q : String) : pyLower q ≠ e := by
  intro heq
  have hdata : q.data.map Char.toLower = e.data := congrArg String.data heq
  rw [← hdata] at hch
  obtain ⟨c, _, hc⟩ := List.mem_map.mp hch
  rw [← hc] at hup
  exact char_toLower_not_upper c hup

theorem infixOfS_iff (p s : List Char) : infixOfS p s = true ↔ p <:+: s := by
  induction s with
  | nil =>
    simp only [infixOfS, List.isPrefixOf_iff_prefix]
    rw [List.prefix_nil, List.infix_nil]
  | cons c rest ih =>
    simp only [infixOfS, Bool.or_eq_true, List.isPrefixOf_iff_prefix, ih]
    exact (List.infix_cons_iff).symm

theorem toDigitsCore_eq_reprAux (f n : Nat) (l : List Char) (h : n < f) :
    Nat.toDigitsCore 10 f n l = reprAux n ++ l := by
  induction f generalizing n l with
  | zero => omega
  | succ f ih =>
    rw [Nat.toDigitsCore]
    by_cases h10 : n < 10
    · have hz : n / 10 = 0 := Nat.div_eq_of_lt h10
      rw [if_pos hz, reprAux, dif_pos h10, Nat.mod_eq_of_lt h10]
      rfl
    · have hne : n / 10 ≠ 0 := by
        intro hc
        have := (Nat.div_eq_zero_iff (by omega : 0 < 10)).mp hc
        omega
      rw [if_neg hne]
      have hlt : n / 10 < f := by
        have h1 : n / 10 < n := Nat.div_lt_self (by omega) (by omega)
        omega
      rw [ih (n / 10) _ hlt]
      have hr : reprAux n = reprAux (n / 10) ++ [(n % 10).digitChar] := by
        rw [reprAux]
        exact dif_neg h10
      rw [hr]
      simp

theorem decodeDigit_digitChar (d : Nat) (h : d < 10) :
    decodeDigit (Nat.digitChar d) = d := by
  interval_cases d <;> decide

theorem decodeRepr_append_singleton (l : List Char) (c : Char) :
    decodeRepr (l ++ [c]) = 10 * decodeRepr l + decodeDigit c := by
  induction l with
  | nil => simp [decodeRepr]
  | cons a as ih =>
    simp [decodeRepr, ih, List.length_append]
    ring

theorem decodeRepr_reprAux (n : Nat) : decodeRepr (reprAux n) = n := by
  induction n using Nat.strong_induction_on with
  | _ n ih =>
    rw [reprAux]
    by_cases h : n < 10
    · rw [dif_pos h]
      simp [decodeRepr, decodeDigit_digitChar n h]
    · rw [dif_neg h]
      rw [decodeRepr_append_singleton]
      rw [ih (n / 10) (Nat.div_lt_self (by omega) (by omega))]
      rw [decodeDigit_digitChar _ (Nat.mod_lt _ (by omega))]
      omega

theorem natRepr_injective : Function.Injective Nat.repr := by
  intro m n h
  have hm : Nat.repr m = (reprAux m).asString := by
    unfold Nat.repr Nat.toDigits
    rw [toDigitsCore_eq_reprAux _ _ _ (Nat.lt_succ_self m), List.append_nil]
  have hn : Nat.repr n = (reprAux n).asString := by
    unfold Nat.repr Nat.toDigits
    rw [toDigitsCore_eq_reprAux _ _ _ (Nat.lt_succ_self n), List.append_nil]
  rw [hm, hn] at h
  have hdata : reprAux m = reprAux n := by
    have := congrArg String.data h
    simpa [List.asString] using this
  calc m = decodeRepr (reprAux m) := (decodeRepr_reprAux m).symm
    _ = decodeRepr (reprAux n) := by rw [hdata]
    _ = n := decodeRepr_reprAux n

theorem contains_iff_mem_str {l : List String} {a : String} :
    l.contains a = true ↔ a ∈ l := by
  simp [List.contains_iff_exists_mem_beq, beq_iff_eq]

/-! ## Claim theorems: category resolver and ignore matcher -/

/-- C4: `get_category` lowercases its input, scans the category map in
iteration order and returns the first category whose extension list
contains the lowercased extension, returning the literal `"Others"` when
none does; lookups are case-insensitive (`.JPG` and `.jpg` resolve
identically), and an extension stored (lowercase, per the CategoryMap
invariant) in a unique owning category resolves to that category. -/

theorem claim_C4 (cats : List (String × List String)) (ext : String) :
    (∀ pre c post, cats = pre ++ c :: post → pyLower ext ∈ c.2 →
      (∀ d ∈ pre, pyLower ext ∉ d.2) → get_category cats ext = c.1)
    ∧ ((∀ c ∈ cats, pyLower ext ∉ c.2) → get_category cats ext = "Others")
    ∧ get_category cats (pyLower ext) = get_category cats ext
    ∧ ((∀ d ∈ cats, ∀ e ∈ d.2, pyLower e = e) →
       ∀ c ∈ cats, ∀ q : String, pyLower q ∈ c.2 →
        (∀ d ∈ cats, pyLower q ∈ d.2 → d = c) → get_category cats q = c.1) := by
  refine ⟨?_, ?_, ?_, ?_⟩
  · intro pre c post hcats hmem hpre
    unfold get_category
    rw [hcats, List.find?_append]
    have h1 : pre.find? (fun ce => ce.2.contains (pyLower ext)) = none := by
      rw [List.find?_eq_none]
      intro d hd
      simp only [Bool.not_eq_true]
      rw [Bool.eq_false_iff]
      intro hc
      exact hpre d hd (contains_iff_mem_str.mp hc)
    have h2 : (c :: post).find? (fun ce => ce.2.contains (pyLower ext)) = some c :=
      List.find?_cons_of_pos _ (contains_iff_mem_str.mpr hmem)
    rw [h1, h2]
    rfl
  · intro habs
    unfold get_category
    have h1 : cats.find? (fun ce => ce.2.contains (pyLower ext)) = none := by
      rw [List.find?_eq_none]
      intro d hd
      simp only [Bool.not_eq_true]
      rw [Bool.eq_false_iff]
      intro hc
      exact habs d hd (contains_iff_mem_str.mp hc)
    rw [h1]
  · unfold get_category
    rw [pyLower_idem]
  · intro _hlow c hc q hq huniq
    unfold get_category
    have hsome : (cats.find? (fun ce => ce.2.contains (pyLower q))).isSome := by
      rw [List.find?_isSome]
      exact ⟨c, hc, contains_iff_mem_str.mpr hq⟩
    obtain ⟨d, hd⟩ := Option.isSome_iff_exists.mp hsome
    rw [hd]
    have hp := List.find?_some hd
    have hp2 : d.2.contains (pyLower q) = true := hp
    have hdc : d = c := huniq d (List.mem_of_find?_eq_some hd) (contains_iff_mem_str.mp hp2)
    rw [hdc]

/-- C4 witness: concrete instances of the resolver facts via `claim_C4`
on the default category table. -/

theorem claim_C4_witness :
    get_category DEFAULT_CATEGORIES ".jpg" = get_category DEFAULT_CATEGORIES ".JPG"
    ∧ get_category DEFAULT_CATEGORIES ".xyz" = "Others"
    ∧ get_category DEFAULT_CATEGORIES ".JPG" = "Images" := by
  refine ⟨?_, ?_, ?_⟩
  · have h := (claim_C4 DEFAULT_CATEGORIES ".JPG").2.2.1
    have hpy : pyLower ".JPG" = ".jpg" := by decide
    rw [hpy] at h
    exact h
  · exact (claim_C4 DEFAULT_CATEGORIES ".xyz").2.1 (by decide)
  · exact (claim_C4 DEFAULT_CATEGORIES ".JPG").1 [] ("Images",
      [".jpg", ".jpeg", ".png", ".gif", ".bmp", ".svg", ".webp", ".ico", ".tiff"])
      (DEFAULT_CATEGORIES.drop 1) (by decide) (by decide) (by decide)

/-- C5: the ignore matcher returns true exactly when some pattern in the
list matches; a leading-star pattern (taking priority even when the
pattern also ends with a star) matches exactly the file names having the
pattern remainder as a suffix, a trailing-star pattern matches exactly
the names having the remainder as a prefix, and any other pattern matches
exactly the names containing it as a substring; the three concrete
spec examples behave as stated. -/

theorem claim_C5 :
    (∀ (name : String) (pats : List String),
      should_ignore name pats = true ↔ ∃ p ∈ pats, matchesPattern name p = true)
    ∧ (∀ name pat : String, startsWithS pat "*" = true →
        (matchesPattern name pat = true ↔ (dropS pat 1).data <:+ name.data))
    ∧ (∀ name pat : String, startsWithS pat "*" = false → endsWithS pat "*" = true →
        (matchesPattern name pat = true ↔ (dropRightS pat 1).data <+: name.data))
    ∧ (∀ name pat : String, startsWithS pat "*" = false → endsWithS pat "*" = false →
        (matchesPattern name pat = true ↔ pat.data <:+: name.data))
    ∧ should_ignore "file.log" ["*.log"] = true
    ∧ should_ignore "draft_x.txt" ["draft_*"] = true
    ∧ should_ignore "keep.txt" ["*.log", "draft_*"] = false := by
  refine ⟨?_, ?_, ?_, ?_, by decide, by decide, by decide⟩
  · intro name pats
    induction pats with
    | nil => simp [should_ignore]
    | cons p ps ih =>
      unfold should_ignore
      by_cases h : matchesPattern name p = true
      · simp [h]
      · rw [if_neg h, ih]
        simp only [List.mem_cons]
        constructor
        · rintro ⟨q, hq, hm⟩
          exact ⟨q, Or.inr hq, hm⟩
        · rintro ⟨q, hq | hq, hm⟩
          · rw [hq] at hm
            exact absurd hm h
          · exact ⟨q, hq, hm⟩
  · intro name pat hstar
    unfold matchesPattern
    rw [if_pos hstar]
    unfold endsWithS
    exact List.isSuffixOf_iff_suffix
  · intro name pat hstar hend
    unfold matchesPattern
    rw [if_neg (by rw [hstar]; exact Bool.false_ne_true), if_pos hend]
    unfold startsWithS
    exact List.isPrefixOf_iff_prefix
  · intro name pat hstar hend
    unfold matchesPattern
    rw [if_neg (by rw [hstar]; exact Bool.false_ne_true),
        if_neg (by rw [hend]; exact Bool.false_ne_true)]
    exact infixOfS_iff _ _

/-- C5 witness: concrete applications of the matcher characterization. -/

theorem claim_C5_witness :
    should_ignore "file.log" ["*.log"] = true
    ∧ matchesPattern "draft_x.txt" "draft_*" = true
    ∧ matchesPattern "report_backup.txt" "*backup*" = false :=
  ⟨claim_C5.2.2.2.2.1,
   (claim_C5.2.2.1 "draft_x.txt" "draft_*" (by decide) (by decide)).mpr (by decide),
   by
    have h := claim_C5.2.1 "report_backup.txt" "*backup*" (by decide)
    rw [Bool.eq_false_iff]
    intro hc
    exact absurd (h.mp hc) (by decide)⟩

/-- C10: lowercase lookup never reaches a stored extension containing an
uppercase ASCII letter: no query lowercases to it, and `get_category`
behaves exactly as if that extension entry were absent from every
category of the map. -/

theorem claim_C10 (cats : List (String × List String)) (e : String) (ch : Char)
    (hch : ch ∈ e.data) (hup : 65 ≤ ch.toNat ∧ ch.toNat ≤ 90) :
    (∀ q : String, pyLower q ≠ e)
    ∧ (∀ q : String, get_category cats q =
        get_category (cats.map (fun c => (c.1, c.2.filter (fun x => x ≠ e)))) q) := by
  have hne : ∀ q : String, pyLower q ≠ e := fun q => pyLower_ne_of_upper_mem hch hup q
  refine ⟨hne, ?_⟩
  intro q
  unfold get_category
  rw [List.find?_map]
  have hpred : (fun ce : String × List String => ce.2.contains (pyLower q)) ∘
      (fun c : String × List String => (c.1, c.2.filter (fun x => x ≠ e))) =
      fun ce : String × List String => ce.2.contains (pyLower q) := by
    funext c
    simp only [Function.comp_apply]
    by_cases hm : pyLower q ∈ c.2
    · have hm2 : pyLower q ∈ c.2.filter (fun x => x ≠ e) := by
        rw [List.mem_filter]
        refine ⟨hm, ?_⟩
        simp [hne q]
      rw [contains_iff_mem_str.mpr hm, contains_iff_mem_str.mpr hm2]
    · have hm2 : pyLower q ∉ c.2.filter (fun x => x ≠ e) := by
        rw [List.mem_filter]
        intro hc
        exact hm hc.1
      rw [Bool.eq_iff_iff]
      simp only [contains_iff_mem_str]
      exact iff_of_false hm2 hm
  rw [hpred]
  cases hfind : cats.find? (fun ce => ce.2.contains (pyLower q)) with
  | none => rfl
  | some c => rfl

/-- C10 witness: a map storing only the uppercase entry `.JPG` resolves
neither `.JPG` nor `.jpg` to it. -/

theorem claim_C10_witness :
    pyLower ".JPG" ≠ ".JPG"
    ∧ get_category [("Pics", [".JPG"])] ".JPG" = "Others"
    ∧ get_category [("Pics", [".JPG"])] ".jpg" = "Others" :=
  ⟨(claim_C10 [("Pics", [".JPG"])] ".JPG" 'J' (by decide) (by decide)).1 ".JPG",
   by decide, by decide⟩

/-! ## Allocator lemmas and claim C3 -/

theorem existsPath_iff (fs : FS) (p : Path) : existsPath fs p = true ↔ p ∈ pathsOf fs := by
  unfold existsPath pathsOf
  rw [List.any_eq_true]
  constructor
  · rintro ⟨e, he, heq⟩
    exact List.mem_map.mpr ⟨e, he, (beq_iff_eq.mp heq)⟩
  · intro hm
    obtain ⟨e, he, heq⟩ := List.mem_map.mp hm
    exact ⟨e, he, beq_iff_eq.mpr heq⟩

theorem candName_injective (stem ext : String) : Function.Injective (candName stem ext) := by
  intro j k h
  unfold candName at h
  have hd := congrArg String.data h
  simp only [String.data_append] at hd
  rw [List.append_assoc, List.append_assoc, List.append_assoc, List.append_assoc] at hd
  have h1 := List.append_cancel_left hd
  have h2 := List.append_cancel_left h1
  have h3 := List.append_cancel_right h2
  exact natRepr_injective (String.ext h3)

theorem allocGo_eq_none (fs : FS) (cat stem ext : String) :
    ∀ fuel k, allocGo fs cat stem ext fuel k = none →
    ∀ j, j < fuel → existsPath fs [cat, candName stem ext (k + j)] = true := by
  intro fuel
  induction fuel with
  | zero => omega
  | succ fuel ih =>
    intro k hnone j hj
    unfold allocGo at hnone
    by_cases hocc : existsPath fs [cat, candName stem ext k] = true
    · rw [if_pos hocc] at hnone
      cases j with
      | zero => simpa using hocc
      | succ j =>
        have := ih (k + 1) hnone j (by omega)
        have harith : k + 1 + j = k + (j + 1) := by omega
        rwa [harith] at this
    · rw [if_neg hocc] at hnone
      exact absurd hnone (Option.some_ne_none _)

theorem allocGo_sound (fs : FS) (cat stem ext : String) :
    ∀ fuel k r, allocGo fs cat stem ext fuel k = some r →
    existsPath fs [cat, r] = false := by
  intro fuel
  induction fuel with
  | zero =>
    intro k r h
    exact absurd h (by simp [allocGo])
  | succ fuel ih =>
    intro k r h
    unfold allocGo at h
    by_cases hocc : existsPath fs [cat, candName stem ext k] = true
    · rw [if_pos hocc] at h
      exact ih (k + 1) r h
    · rw [if_neg hocc] at h
      have := Option.some.inj h
      rw [← this]
      exact Bool.eq_false_iff.mpr hocc

theorem allocGo_spec (fs : FS) (cat stem ext : String) :
    ∀ fuel k r, allocGo fs cat stem ext fuel k = some r →
    ∃ i, i < fuel ∧ r = candName stem ext (k + i) ∧
      existsPath fs [cat, r] = false ∧
      ∀ j, j < i → existsPath fs [cat, candName stem ext (k + j)] = true := by
  intro fuel
  induction fuel with
  | zero =>
    intro k r h
    exact absurd h (by simp [allocGo])
  | succ fuel ih =>
    intro k r h
    unfold allocGo at h
    by_cases hocc : existsPath fs [cat, candName stem ext k] = true
    · rw [if_pos hocc] at h
      obtain ⟨i, hif, hr, hfree, hall⟩ := ih (k + 1) r h
      refine ⟨i + 1, by omega, by rw [hr]; congr 1; omega, hfree, ?_⟩
      intro j hj
      cases j with
      | zero => simpa using hocc
      | succ j =>
        have := hall j (by omega)
        have harith : k + 1 + j = k + (j + 1) := by omega
        rwa [harith] at this
    · rw [if_neg hocc] at h
      refine ⟨0, by omega, ?_, ?_, by omega⟩
      · rw [← Option.some.inj h, Nat.add_zero]
      · rw [← Option.some.inj h]
        exact Bool.eq_false_iff.mpr hocc

theorem allocGo_isSome (fs : FS) (cat stem ext : String) (k : Nat) :
    (allocGo fs cat stem ext (fs.length + 1) k).isSome = true := by
  by_contra hcon
  have hnone : allocGo fs cat stem ext (fs.length + 1) k = none := by
    cases h : allocGo fs cat stem ext (fs.length + 1) k with
    | none => rfl
    | some r => rw [h] at hcon; exact absurd rfl hcon
  have hall := allocGo_eq_none fs cat stem ext _ k hnone
  set L := (List.range' k (fs.length + 1)).map
    (fun j => ([cat, candName stem ext j] : Path)) with hL
  have hsub : L ⊆ pathsOf fs := by
    intro p hp
    obtain ⟨j, hj, hpe⟩ := List.mem_map.mp hp
    obtain ⟨i, hi, hji⟩ := List.mem_range'.mp hj
    rw [← hpe]
    apply (existsPath_iff fs _).mp
    have := hall i (by omega)
    have harith : k + i = j := by omega
    rwa [harith] at this
  have hnd : L.Nodup := by
    apply List.Nodup.map
    · intro a b hab
      have := List.cons.inj hab
      exact candName_injective stem ext (List.cons.inj this.2).1
    · exact List.nodup_range' _ _
  have hle := (List.subperm_of_subset hnd hsub).length_le
  rw [hL] at hle
  simp only [List.length_map, List.length_range'] at hle
  unfold pathsOf at hle
  simp only [List.length_map] at hle
  omega

theorem allocate_sound (fs : FS) (cat nm : String) :
    ∀ r, allocate fs cat nm = some r → existsPath fs [cat, r] = false := by
  intro r h
  unfold allocate at h
  by_cases hocc : existsPath fs [cat, nm] = true
  · rw [if_pos hocc] at h
    exact allocGo_sound fs cat _ _ _ _ r h
  · rw [if_neg hocc] at h
    rw [← Option.some.inj h]
    exact Bool.eq_false_iff.mpr hocc

/-- C3: the allocator always returns a destination name that does not
currently exist in the category folder; with the unchanged name free it
returns the unchanged name, and otherwise it returns `stem_k+extension`
for the least counter `k ≥ 1` whose candidate is free, every smaller
candidate being occupied. The built-in fuel `|fs| + 1` always suffices
(the search never fails), and the two concrete collision examples give
`a_1.txt` and then `a_2.txt`. -/

theorem claim_C3 (fs : FS) (cat nm : String) :
    (∀ r, allocate fs cat nm = some r → existsPath fs [cat, r] = false)
    ∧ (allocate fs cat nm).isSome = true
    ∧ (existsPath fs [cat, nm] = false → allocate fs cat nm = some nm)
    ∧ (∀ r, existsPath fs [cat, nm] = true → allocate fs cat nm = some r →
        ∃ k, 1 ≤ k ∧ r = candName (pyStem nm) (pySuffix nm) k ∧
          existsPath fs [cat, r] = false ∧
          ∀ j, 1 ≤ j → j < k →
            existsPath fs [cat, candName (pyStem nm) (pySuffix nm) j] = true)
    ∧ allocate demoC3a "Documents" "a.txt" = some "a_1.txt"
    ∧ allocate demoC3b "Documents" "a.txt" = some "a_2.txt" := by
  refine ⟨allocate_sound fs cat nm, ?_, ?_, ?_, by decide, by decide⟩
  · unfold allocate
    by_cases hocc : existsPath fs [cat, nm] = true
    · rw [if_pos hocc]
      exact allocGo_isSome fs cat _ _ 1
    · rw [if_neg hocc]
      rfl
  · intro hfree
    unfold allocate
    rw [if_neg (by rw [hfree]; exact Bool.false_ne_true)]
  · intro r hocc h
    unfold allocate at h
    rw [if_pos hocc] at h
    obtain ⟨i, _, hr, hfree, hall⟩ := allocGo_spec fs cat _ _ _ _ r h
    refine ⟨1 + i, by omega, hr, hfree, ?_⟩
    intro j hj1 hji
    have := hall (j - 1) (by omega)
    have harith : 1 + (j - 1) = j := by omega
    rwa [harith] at this

/-- C3 witness: the allocator facts applied at concrete inputs. -/

theorem claim_C3_witness :
    allocate ([] : FS) "Docs" "b.txt" = some "b.txt"
    ∧ existsPath demoC3a ["Documents", "a_1.txt"] = false :=
  ⟨(claim_C3 ([] : FS) "Docs" "b.txt").2.2.1 (by decide),
   (claim_C3 demoC3a "Documents" "a.txt").1 "a_1.txt"
     (claim_C3 demoC3a "Documents" "a.txt").2.2.2.2.1⟩

/-! ## Undo lemmas and claims C8, C9 -/

theorem restoresLoop_append (rf : OpRec → Bool) (l1 l2 : List OpRec) :
    ∀ fs c, restoresLoop rf fs c (l1 ++ l2) =
      restoresLoop rf (restoresLoop rf fs c l1).1 (restoresLoop rf fs c l1).2 l2 := by
  induction l1 with
  | nil => intro fs c; rfl
  | cons r rest ih =>
    intro fs c
    simp only [List.cons_append, restoresLoop]
    exact ih _ _

theorem restoreStep_shift (rf : OpRec → Bool) (fs : FS) (c : Nat) (r : OpRec) :
    restoreStep rf fs c r = ((restoreStep rf fs 0 r).1, c + (restoreStep rf fs 0 r).2) := by
  unfold restoreStep
  split
  · rfl
  · simp only
    split
    · rfl
    · split
      · rfl
      · split
        · split
          · rfl
          · rfl
        · rfl

theorem restoresLoop_count (rf : OpRec → Bool) (l : List OpRec) :
    ∀ fs c, (restoresLoop rf fs c l).1 = (restoresLoop rf fs 0 l).1
    ∧ (restoresLoop rf fs c l).2 = c + (restoresLoop rf fs 0 l).2 := by
  induction l with
  | nil => intro fs c; exact ⟨rfl, rfl⟩
  | cons r rest ih =>
    intro fs c
    simp only [restoresLoop]
    rw [restoreStep_shift rf fs c r]
    simp only
    obtain ⟨g1, g2⟩ := ih (restoreStep rf fs 0 r).1 (c + (restoreStep rf fs 0 r).2)
    obtain ⟨g3, g4⟩ := ih (restoreStep rf fs 0 r).1 (restoreStep rf fs 0 r).2
    refine ⟨by rw [g1, g3], ?_⟩
    rw [g2, g4]
    omega

/-- C8: undo replays the log in reverse chronological order (the loop on
a log ending in `r` starts by undoing `r`); a record whose destination no
longer exists is skipped without changing the filesystem or the count;
the loop continues past every record regardless of its outcome; each
record contributes its own success indicator to the count independently
of the running total (so the reported count is the number of successful
restores); and the undo entry point reports exactly the count of the
reverse replay. -/

theorem claim_C8 (rf : OpRec → Bool) :
    (∀ (fs : FS) (c : Nat) (front : List OpRec) (r : OpRec),
      restoresLoop rf fs c (front ++ [r]).reverse =
        restoresLoop rf (restoreStep rf fs c r).1 (restoreStep rf fs c r).2 front.reverse)
    ∧ (∀ (fs : FS) (c : Nat) (r : OpRec), existsPath fs r.new = false →
        restoreStep rf fs c r = (fs, c))
    ∧ (∀ (fs : FS) (c : Nat) (r : OpRec) (rest : List OpRec),
        restoresLoop rf fs c (r :: rest) =
          restoresLoop rf (restoreStep rf fs c r).1 (restoreStep rf fs c r).2 rest)
    ∧ (∀ (fs : FS) (c : Nat) (l : List OpRec),
        (restoresLoop rf fs c l).2 = c + (restoresLoop rf fs 0 l).2)
    ∧ (∀ (fs : FS) (c : Nat) (r : OpRec),
        (restoreStep rf fs c r).2 = c ∨ (restoreStep rf fs c r).2 = c + 1)
    ∧ (∀ (uf : Bool) (w : World) (ops : List OpRec), w.log = some ops → ops ≠ [] →
        (undoRun rf uf w).2 = UndoResult.done ((restoresLoop rf w.fs 0 ops.reverse).2)) := by
  refine ⟨?_, ?_, ?_, ?_, ?_, ?_⟩
  · intro fs c front r
    rw [List.reverse_append, List.reverse_singleton, List.singleton_append]
    rfl
  · intro fs c r hmiss
    unfold restoreStep
    rw [if_pos (by rw [hmiss]; rfl)]
  · intro fs c r rest
    rfl
  · intro fs c l
    exact (restoresLoop_count rf l fs c).2
  · intro fs c r
    rw [restoreStep_shift rf fs c r]
    have h0 : (restoreStep rf fs 0 r).2 = 0 ∨ (restoreStep rf fs 0 r).2 = 1 := by
      unfold restoreStep
      split
      · left; rfl
      · simp only
        split
        · left; rfl
        · split
          · left; rfl
          · split
            · split
              · left; rfl
              · right; rfl
            · right; rfl
    rcases h0 with h0 | h0 <;> rw [h0]
    · left; rfl
    · right; rfl
  · intro uf w ops hlog hne
    unfold undoRun
    rw [hlog]
    simp only [List.isEmpty_eq_true]
    rw [if_neg hne]
    cases uf <;> rfl

/-- C8 witness: a concrete two-record log replays in reverse and a record
with a missing destination is skipped. -/

theorem claim_C8_witness :
    restoresLoop (fun _ => false) ([⟨["A"], true⟩, ⟨["A", "x"], false⟩] : FS) 0
        ([⟨["x"], ["A", "x"], 0⟩, ⟨["y"], ["A", "y"], 1⟩] : List OpRec).reverse =
      restoresLoop (fun _ => false)
        (restoreStep (fun _ => false) ([⟨["A"], true⟩, ⟨["A", "x"], false⟩] : FS) 0
          ⟨["y"], ["A", "y"], 1⟩).1
        (restoreStep (fun _ => false) ([⟨["A"], true⟩, ⟨["A", "x"], false⟩] : FS) 0
          ⟨["y"], ["A", "y"], 1⟩).2
        ([⟨["x"], ["A", "x"], 0⟩] : List OpRec).reverse
    ∧ restoreStep (fun _ => false) ([] : FS) 0 ⟨["x"], ["A", "x"], 0⟩ = (([] : FS), 0) :=
  ⟨(claim_C8 (fun _ => false)).1 _ 0 [⟨["x"], ["A", "x"], 0⟩] ⟨["y"], ["A", "y"], 1⟩,
   (claim_C8 (fun _ => false)).2.1 ([] : FS) 0 ⟨["x"], ["A", "x"], 0⟩ (by decide)⟩

theorem existsPath_removeEntry_self (fs : FS) (p : Path) :
    existsPath (removeEntry fs p) p = false := by
  unfold existsPath removeEntry
  rw [Bool.eq_false_iff]
  intro hc
  obtain ⟨e, he, heq⟩ := List.any_eq_true.mp hc
  obtain ⟨_, hkeep⟩ := List.mem_filter.mp he
  rw [beq_iff_eq.mp heq] at hkeep
  simp at hkeep

/-- C9: whenever the log exists with a nonempty operation list, undo
reaches completion and reports a restored count for every combination of
per-record failures; when the unlink succeeds the log file and its entry
are gone, and when the unlink fails the outcome is still a completed
count with the log left in place (non-fatal). -/

theorem claim_C9 (rf : OpRec → Bool) (uf : Bool) (w : World) (ops : List OpRec)
    (hlog : w.log = some ops) (hne : ops ≠ []) :
    (∃ cnt, (undoRun rf uf w).2 = UndoResult.done cnt)
    ∧ (uf = false → (undoRun rf uf w).1.log = none
        ∧ existsPath (undoRun rf uf w).1.fs logPath = false)
    ∧ (uf = true → (undoRun rf uf w).1.log = some ops) := by
  unfold undoRun
  rw [hlog]
  simp only [List.isEmpty_eq_true]
  rw [if_neg hne]
  cases uf with
  | false =>
    rw [if_neg (by decide : ¬(false = true))]
    refine ⟨⟨_, rfl⟩, ?_, ?_⟩
    · intro _
      exact ⟨rfl, existsPath_removeEntry_self _ _⟩
    · intro h
      exact absurd h (by decide)
  | true =>
    rw [if_pos rfl]
    refine ⟨⟨_, rfl⟩, ?_, ?_⟩
    · intro h
      exact absurd h (by decide)
    · intro _
      rfl

/-- C9 witness: a concrete undo with one record, a restore failure
injected, and a successful unlink still deletes the log. -/

theorem claim_C9_witness :
    (∃ cnt, (undoRun (fun _ => true) false
      ⟨[⟨logPath, false⟩], some [⟨["x"], ["A", "x"], 0⟩]⟩).2 = UndoResult.done cnt)
    ∧ (undoRun (fun _ => true) false
      ⟨[⟨logPath, false⟩], some [⟨["x"], ["A", "x"], 0⟩]⟩).1.log = none :=
  ⟨(claim_C9 (fun _ => true) false _ _ rfl (by decide)).1,
   ((claim_C9 (fun _ => true) false _ _ rfl (by decide)).2.1 rfl).1⟩

/-! ## Claim C7: live-mode move recording -/

/-- C7: in live mode a successful move appends exactly one operation
record carrying the source path, the freshly allocated destination path
of the performed move, and the current timestamp; a failed move returns
false and appends nothing; and a failed file does not abort the
traversal, which continues over the remaining entries. -/

theorem claim_C7 (cfg : Cfg) (hlive : cfg.dryRun = false) :
    (∀ (st : OState) (p : Path) (st2 : OState) (b : Bool),
      organize_file cfg st p = some (st2, b) →
      ((b = true → ∃ dst fs1, existsPath fs1 dst = false ∧ st2.fs = moveFile fs1 p dst
          ∧ st2.ops = st.ops ++ [⟨p, dst, st.clock⟩] ∧ st2.clock = st.clock + 1)
       ∧ (b = false → st2.ops = st.ops ∧ st2.clock = st.clock)))
    ∧ (∀ (fuel : Nat) (st : OState) (cd : Path) (e : Entry) (rest : List Entry)
        (st1 : OState),
        e.isDir = false →
        should_ignore (nameOf e.path) cfg.patterns = false →
        organize_file cfg st e.path = some (st1, false) →
        organizeItemsF cfg (fuel + 1) st cd (e :: rest) =
          organizeItemsF cfg fuel st1 cd rest) := by
  constructor
  · intro st p st2 b h
    unfold organize_file at h
    rw [hlive] at h
    simp only [Bool.false_eq_true, if_false] at h
    split at h
    · exact absurd h (by simp)
    · rename_i fs1 hmk
      split at h
      · exact absurd h (by simp)
      · rename_i newNm halloc
        split at h
        · rename_i hfail
          have hpair := Option.some.inj h
          injection hpair with hst hb
          subst hst
          constructor
          · intro htrue
            rw [← hb] at htrue
            exact absurd htrue (by decide)
          · intro _
            exact ⟨rfl, rfl⟩
        · rename_i hok
          have hpair := Option.some.inj h
          injection hpair with hst hb
          subst hst
          constructor
          · intro _
            exact ⟨[get_category cfg.categories (pySuffix (nameOf p)), newNm], fs1,
              allocate_sound fs1 _ _ newNm halloc, rfl, rfl, rfl⟩
          · intro hfalse
            rw [← hb] at hfalse
            exact absurd hfalse (by decide)
  · intro fuel st cd e rest st1 hdir hig horg
    conv_lhs => rw [organizeItemsF]
    rw [hdir]
    simp only [Bool.false_eq_true, if_false, hig, horg]
    cases h2 : organizeItemsF cfg fuel st1 cd rest with
    | none => rfl
    | some p2 =>
      cases p2
      simp

/-- C7 witness: a successful concrete move appends its record, and with
an injected move failure the record list stays empty. -/

theorem claim_C7_witness :
    (∃ dst fs1, existsPath fs1 dst = false
      ∧ (⟨[⟨["Documents"], true⟩, ⟨["Documents", "a.txt"], false⟩],
          [⟨["a.txt"], ["Documents", "a.txt"], 0⟩], 1, []⟩ : OState).fs = moveFile fs1 ["a.txt"] dst
      ∧ (⟨[⟨["Documents"], true⟩, ⟨["Documents", "a.txt"], false⟩],
          [⟨["a.txt"], ["Documents", "a.txt"], 0⟩], 1, []⟩ : OState).ops =
          c7st.ops ++ [⟨["a.txt"], dst, c7st.clock⟩]
      ∧ (⟨[⟨["Documents"], true⟩, ⟨["Documents", "a.txt"], false⟩],
          [⟨["a.txt"], ["Documents", "a.txt"], 0⟩], 1, []⟩ : OState).clock = c7st.clock + 1)
    ∧ (⟨[⟨["a.txt"], false⟩, ⟨["Documents"], true⟩], [], 0, []⟩ : OState).ops = c7st.ops :=
  ⟨((claim_C7 c7cfg rfl).1 c7st ["a.txt"] _ true (by decide)).1 rfl,
   (((claim_C7 c7cfgFail rfl).1 c7st ["a.txt"] _ false (by decide)).2 rfl).1⟩

/-! ## Claim C6: dry-run makes no mutation -/

theorem organize_file_dry (cfg : Cfg) (hdry : cfg.dryRun = true) (st : OState) (p : Path) :
    ∀ st2 b, organize_file cfg st p = some (st2, b) →
      st2.fs = st.fs ∧ st2.ops = st.ops ∧ st2.clock = st.clock ∧ b = true := by
  intro st2 b h
  unfold organize_file at h
  rw [hdry] at h
  simp only [if_true] at h
  split at h
  · exact absurd h (by simp)
  · rename_i newNm halloc
    injection (Option.some.inj h) with hst hb
    subst hst
    subst hb
    exact ⟨rfl, rfl, rfl, rfl⟩

theorem organizeItemsF_dry (cfg : Cfg) (hdry : cfg.dryRun = true) :
    ∀ fuel items st cd st2 n, organizeItemsF cfg fuel st cd items = some (st2, n) →
      st2.fs = st.fs ∧ st2.ops = st.ops ∧ st2.clock = st.clock := by
  intro fuel
  induction fuel with
  | zero =>
    intro items st cd st2 n h
    exact absurd h (by simp [organizeItemsF])
  | succ fuel ih =>
    intro items st cd st2 n h
    cases items with
    | nil =>
      unfold organizeItemsF at h
      injection (Option.some.inj h) with hst _
      subst hst
      exact ⟨rfl, rfl, rfl⟩
    | cons e rest =>
      unfold organizeItemsF at h
      split at h
      · split at h
        · exact ih rest st cd st2 n h
        · split at h
          · split at h
            · exact absurd h (by simp)
            · rename_i w1 m1 hdirf
              split at h
              · exact absurd h (by simp)
              · rename_i w2 m2 hrest
                injection (Option.some.inj h) with hst _
                subst hst
                obtain ⟨d1, d2, d3⟩ := ih _ _ _ _ _ hdirf
                obtain ⟨r1, r2, r3⟩ := ih _ _ _ _ _ hrest
                exact ⟨by rw [r1, d1], by rw [r2, d2], by rw [r3, d3]⟩
          · exact ih rest st cd st2 n h
      · split at h
        · exact ih rest st cd st2 n h
        · split at h
          · exact absurd h (by simp)
          · rename_i w1 ok horg
            split at h
            · exact absurd h (by simp)
            · rename_i w2 m2 hrest
              injection (Option.some.inj h) with hst _
              subst hst
              obtain ⟨d1, d2, d3, _⟩ := organize_file_dry cfg hdry st e.path _ _ horg
              obtain ⟨r1, r2, r3⟩ := ih _ _ _ _ _ hrest
              exact ⟨by rw [r1, d1], by rw [r2, d2], by rw [r3, d3]⟩

theorem organizeDirF_dry (cfg : Cfg) (hdry : cfg.dryRun = true) :
    ∀ fuel st cd st2 n, organizeDirF cfg fuel st cd = some (st2, n) →
      st2.fs = st.fs ∧ st2.ops = st.ops ∧ st2.clock = st.clock := by
  intro fuel st cd st2 n h
  exact organizeItemsF_dry cfg hdry fuel _ st cd st2 n h

/-- C6: a dry run mutates nothing — the filesystem is unchanged, no
operation record is appended, and no log is written — and therefore a
second dry run from the resulting world returns the identical world,
state (including the identical reported source→destination pairs) and
count. -/

theorem claim_C6 (cfg : Cfg) (w : World) (hdry : cfg.dryRun = true)
    (w2 : World) (st : OState) (n : Nat)
    (hrun : runOrganize cfg w = some (w2, st, n)) :
    w2.fs = w.fs ∧ w2.log = w.log ∧ st.ops = [] ∧
    runOrganize cfg w2 = some (w2, st, n) := by
  unfold runOrganize at hrun
  split at hrun
  · exact absurd hrun (by simp)
  · rename_i s0 n0 hdir
    rw [hdry] at hrun
    simp only [Bool.true_or, if_true] at hrun
    injection (Option.some.inj hrun) with hw2 hrest
    injection hrest with hst hn
    subst hw2
    subst hst
    subst hn
    have d := organizeDirF_dry cfg hdry (orgFuel w.fs) _ _ _ _ hdir
    have d1 : s0.fs = w.fs := d.1
    have d2 : s0.ops = [] := d.2.1
    refine ⟨d1, rfl, d2, ?_⟩
    unfold runOrganize
    have hfs2 : ({ w with fs := s0.fs } : World).fs = w.fs := d1
    rw [hfs2, hdir, hdry]
    simp only [Bool.true_or, if_true]

/-- C6 witness: a concrete dry run records nothing and reruns to the
identical result. -/

theorem claim_C6_witness :
    c6st.ops = [] ∧ runOrganize c6cfg ⟨c6fs, none⟩ = some (⟨c6fs, none⟩, c6st, 3) :=
  ⟨(claim_C6 c6cfg ⟨c6fs, none⟩ rfl ⟨c6fs, none⟩ c6st 3 (by decide)).2.2.1,
   (claim_C6 c6cfg ⟨c6fs, none⟩ rfl ⟨c6fs, none⟩ c6st 3 (by decide)).2.2.2⟩

/-- C2 counterexample: `sub/Images` is a deeper nested category-named
folder holding `x.jpg`, yet a recursive live run completes with processed
count 0, no recorded operation, and an unchanged filesystem — the claim's
assertion that such folders are traversed structurally with their
processed-file counts accumulated into the total is false on the code. -/

theorem claim_C2_counterexample :
    (runOrganize c2cfg ⟨c2fs, none⟩).map (fun r => (r.1.fs, r.2.1.ops, r.2.2)) =
      some (c2fs, [], 0)
    ∧ isDirAt c2fs ["sub", "Images"] = true
    ∧ nameOf ["sub", "Images"] = "Images"
    ∧ (DEFAULT_CATEGORIES.map Prod.fst).contains "Images" = true
    ∧ isFileAt c2fs ["sub", "Images", "x.jpg"] = true := by
  refine ⟨by decide, by decide, by decide, by decide, by decide⟩

/-- C2 amended: a child directory is skipped unconditionally exactly when
it is a direct child of the root whose name is a category name; it is
recursed into exactly when recursion is enabled, it is a direct child of
the root, and it is not category-named; a deeper nested directory —
category-named or not — is neither skipped by the name check nor descended
into, contributing nothing to the state or the count; and with recursion
disabled every child directory is passed over. -/

theorem claim_C2_amended (cfg : Cfg) (fuel : Nat) (st : OState) (cd : Path)
    (e : Entry) (rest : List Entry) (hdir : e.isDir = true) :
    (e.path.dropLast = [] → (cfg.categories.map Prod.fst).contains (nameOf e.path) = true →
      organizeItemsF cfg (fuel + 1) st cd (e :: rest) = organizeItemsF cfg fuel st cd rest)
    ∧ (e.path.dropLast = [] → (cfg.categories.map Prod.fst).contains (nameOf e.path) = false →
       cfg.recursive = true →
       organizeItemsF cfg (fuel + 1) st cd (e :: rest) =
         (organizeItemsF cfg fuel st e.path (childrenOf st.fs e.path)).bind (fun p1 =>
           (organizeItemsF cfg fuel p1.1 cd rest).map (fun p2 => (p2.1, p1.2 + p2.2))))
    ∧ (e.path.dropLast ≠ [] →
       organizeItemsF cfg (fuel + 1) st cd (e :: rest) = organizeItemsF cfg fuel st cd rest)
    ∧ (cfg.recursive = false →
       organizeItemsF cfg (fuel + 1) st cd (e :: rest) =
         organizeItemsF cfg fuel st cd rest) := by
  refine ⟨?_, ?_, ?_, ?_⟩
  · intro hroot hcat
    conv_lhs => rw [organizeItemsF]
    rw [hdir]
    simp only [if_true, beq_iff_eq.mpr hroot, hcat, Bool.and_self, if_pos rfl]
  · intro hroot hcat hrec
    conv_lhs => rw [organizeItemsF]
    rw [hdir]
    simp only [if_true, beq_iff_eq.mpr hroot, hcat, hrec, Bool.and_true, Bool.and_false,
      Bool.true_and, Bool.false_eq_true, if_false, if_pos rfl]
    cases h1 : organizeItemsF cfg fuel st e.path (childrenOf st.fs e.path) with
    | none => rfl
    | some p1 =>
      cases p1 with
      | mk st1 n1 =>
        simp only [Option.bind_some]
        cases h2 : organizeItemsF cfg fuel st1 cd rest with
        | none => simp [h2]
        | some p2 => simp [h2]
  · intro hdeep
    conv_lhs => rw [organizeItemsF]
    rw [hdir]
    have hb : (e.path.dropLast == ([] : Path)) = false := by
      rw [Bool.eq_false_iff]
      intro hc
      exact hdeep (beq_iff_eq.mp hc)
    simp only [if_true, hb, Bool.false_and, Bool.and_false, Bool.false_eq_true, if_false]
  · intro hrec
    conv_lhs => rw [organizeItemsF]
    rw [hdir]
    simp only [if_true, hrec, Bool.false_and, Bool.false_eq_true, if_false]
    by_cases hskip : (e.path.dropLast == ([] : Path)) = true
         ∧ (cfg.categories.map Prod.fst).contains (nameOf e.path) = true
    · rw [if_pos (by rw [hskip.1, hskip.2]; rfl)]
    · rw [if_neg ?_]
      intro hc
      exact hskip (Bool.and_eq_true_iff.mp hc)

/-- C2 amended witness: the deeper nested `sub/Images` entry of the
counterexample state contributes nothing when processed. -/

theorem claim_C2_amended_witness :
    organizeItemsF c2cfg 2 ⟨c2fs, [], 0, []⟩ ["sub"] [⟨["sub", "Images"], true⟩] =
      organizeItemsF c2cfg 1 ⟨c2fs, [], 0, []⟩ ["sub"] [] :=
  (claim_C2_amended c2cfg 1 ⟨c2fs, [], 0, []⟩ ["sub"] ⟨["sub", "Images"], true⟩ [] rfl).2.2.1
    (by decide)

/-! ## Filesystem lemmas for the round-trip development -/

theorem containsIffMem {α : Type} [BEq α] [LawfulBEq α] {l : List α} {a : α} :
    l.contains a = true ↔ a ∈ l := by
  simp [List.contains_iff_exists_mem_beq, beq_iff_eq]

theorem isFileAt_iff {fs : FS} {p : Path} :
    isFileAt fs p = true ↔ ∃ e, e ∈ fs ∧ e.path = p ∧ e.isDir = false := by
  unfold isFileAt
  rw [List.any_eq_true]
  constructor
  · rintro ⟨e, he, hc⟩
    rcases Bool.and_eq_true_iff.mp hc with ⟨h1, h2⟩
    exact ⟨e, he, beq_iff_eq.mp h1, by simpa using h2⟩
  · rintro ⟨e, he, h1, h2⟩
    exact ⟨e, he, Bool.and_eq_true_iff.mpr ⟨beq_iff_eq.mpr h1, by simp [h2]⟩⟩

theorem isDirAt_iff {fs : FS} {p : Path} :
    isDirAt fs p = true ↔ ∃ e, e ∈ fs ∧ e.path = p ∧ e.isDir = true := by
  unfold isDirAt
  rw [List.any_eq_true]
  constructor
  · rintro ⟨e, he, hc⟩
    rcases Bool.and_eq_true_iff.mp hc with ⟨h1, h2⟩
    exact ⟨e, he, beq_iff_eq.mp h1, h2⟩
  · rintro ⟨e, he, h1, h2⟩
    exact ⟨e, he, Bool.and_eq_true_iff.mpr ⟨beq_iff_eq.mpr h1, h2⟩⟩

theorem existsPath_iff_entry {fs : FS} {p : Path} :
    existsPath fs p = true ↔ ∃ e, e ∈ fs ∧ e.path = p := by
  unfold existsPath
  rw [List.any_eq_true]
  constructor
  · rintro ⟨e, he, hc⟩
    exact ⟨e, he, beq_iff_eq.mp hc⟩
  · rintro ⟨e, he, h1⟩
    exact ⟨e, he, beq_iff_eq.mpr h1⟩

theorem existsPath_or {fs : FS} {p : Path} :
    existsPath fs p = true ↔ (isFileAt fs p = true ∨ isDirAt fs p = true) := by
  rw [existsPath_iff_entry, isFileAt_iff, isDirAt_iff]
  constructor
  · rintro ⟨e, he, hp⟩
    cases hd : e.isDir with
    | false => exact Or.inl ⟨e, he, hp, hd⟩
    | true => exact Or.inr ⟨e, he, hp, hd⟩
  · rintro (⟨e, he, hp, _⟩ | ⟨e, he, hp, _⟩) <;> exact ⟨e, he, hp⟩

theorem mem_pathsOf {fs : FS} {p : Path} :
    p ∈ pathsOf fs ↔ ∃ e, e ∈ fs ∧ e.path = p := by
  unfold pathsOf
  rw [List.mem_map]

theorem nodupPaths_iff {l : List Path} : nodupPaths l = true ↔ l.Nodup := by
  induction l with
  | nil => simp [nodupPaths]
  | cons p rest ih =>
    unfold nodupPaths
    rw [Bool.and_eq_true_iff, List.nodup_cons, ih]
    constructor
    · rintro ⟨h1, h2⟩
      refine ⟨?_, h2⟩
      intro hc
      rw [Bool.not_eq_eq_eq_not, Bool.not_true] at h1
      exact absurd (containsIffMem.mpr hc) (by rw [h1]; exact Bool.false_ne_true)
    · rintro ⟨h1, h2⟩
      refine ⟨?_, h2⟩
      rw [Bool.not_eq_eq_eq_not, Bool.not_true, Bool.eq_false_iff]
      intro hc
      exact h1 (containsIffMem.mp hc)

/-- Under path-distinctness a path cannot be both a file and a directory. -/

theorem file_not_dir {fs : FS} {p : Path} (hnd : nodupPaths (pathsOf fs) = true)
    (hf : isFileAt fs p = true) : isDirAt fs p = false := by
  rw [Bool.eq_false_iff]
  intro hd
  obtain ⟨e, he, hep, hef⟩ := isFileAt_iff.mp hf
  obtain ⟨d, hdm, hdp, hdd⟩ := isDirAt_iff.mp hd
  have hnd2 := nodupPaths_iff.mp hnd
  have hne : e ≠ d := by
    intro hc
    rw [hc] at hef
    rw [hef] at hdd
    exact absurd hdd (by decide)
  have : pathsOf fs = fs.map (fun e => e.path) := rfl
  have hinj := List.inj_on_of_nodup_map (by rw [← this]; exact hnd2)
  exact hne (hinj he hdm (by rw [hep, hdp]))

theorem isFileAt_append {fs : FS} {q p : Path} {b : Bool} :
    isFileAt (fs ++ [⟨q, b⟩]) p = true ↔
      (isFileAt fs p = true ∨ (p = q ∧ b = false)) := by
  rw [isFileAt_iff, isFileAt_iff]
  constructor
  · rintro ⟨e, he, hp, hf⟩
    rcases List.mem_append.mp he with he | he
    · exact Or.inl ⟨e, he, hp, hf⟩
    · rcases List.mem_singleton.mp he with rfl
      exact Or.inr ⟨hp.symm ▸ rfl, hf⟩
  · rintro (⟨e, he, hp, hf⟩ | ⟨hp, hb⟩)
    · exact ⟨e, List.mem_append.mpr (Or.inl he), hp, hf⟩
    · exact ⟨⟨q, b⟩, List.mem_append.mpr (Or.inr (List.mem_singleton.mpr rfl)), hp.symm, hb⟩

theorem isDirAt_append {fs : FS} {q p : Path} {b : Bool} :
    isDirAt (fs ++ [⟨q, b⟩]) p = true ↔
      (isDirAt fs p = true ∨ (p = q ∧ b = true)) := by
  rw [isDirAt_iff, isDirAt_iff]
  constructor
  · rintro ⟨e, he, hp, hf⟩
    rcases List.mem_append.mp he with he | he
    · exact Or.inl ⟨e, he, hp, hf⟩
    · rcases List.mem_singleton.mp he with rfl
      exact Or.inr ⟨hp.symm ▸ rfl, hf⟩
  · rintro (⟨e, he, hp, hf⟩ | ⟨hp, hb⟩)
    · exact ⟨e, List.mem_append.mpr (Or.inl he), hp, hf⟩
    · exact ⟨⟨q, b⟩, List.mem_append.mpr (Or.inr (List.mem_singleton.mpr rfl)), hp.symm, hb⟩

theorem existsPath_append {fs : FS} {q p : Path} {b : Bool} :
    existsPath (fs ++ [⟨q, b⟩]) p = true ↔ (existsPath fs p = true ∨ p = q) := by
  rw [existsPath_iff_entry, existsPath_iff_entry]
  constructor
  · rintro ⟨e, he, hp⟩
    rcases List.mem_append.mp he with he | he
    · exact Or.inl ⟨e, he, hp⟩
    · rcases List.mem_singleton.mp he with rfl
      exact Or.inr hp.symm
  · rintro (⟨e, he, hp⟩ | hp)
    · exact ⟨e, List.mem_append.mpr (Or.inl he), hp⟩
    · exact ⟨⟨q, b⟩, List.mem_append.mpr (Or.inr (List.mem_singleton.mpr rfl)), hp.symm⟩

theorem isFileAt_moveFile {fs : FS} {src dst p : Path} :
    isFileAt (moveFile fs src dst) p = true ↔
      (p = dst ∨ (p ≠ src ∧ p ≠ dst ∧ isFileAt fs p = true)) := by
  unfold moveFile
  rw [isFileAt_append]
  constructor
  · rintro (hf | ⟨hp, _⟩)
    · obtain ⟨e, he, hp, hfe⟩ := isFileAt_iff.mp hf
      obtain ⟨hin, hkeep⟩ := List.mem_filter.mp he
      rcases Bool.and_eq_true_iff.mp hkeep with ⟨h1, h2⟩
      rw [Bool.not_eq_eq_eq_not, Bool.not_true, beq_eq_false_iff_ne] at h1 h2
      exact Or.inr ⟨hp ▸ h1, hp ▸ h2, isFileAt_iff.mpr ⟨e, hin, hp, hfe⟩⟩
    · exact Or.inl hp
  · rintro (hp | ⟨hs, hd, hf⟩)
    · exact Or.inr ⟨hp, rfl⟩
    · obtain ⟨e, he, hp, hfe⟩ := isFileAt_iff.mp hf
      refine Or.inl (isFileAt_iff.mpr ⟨e, List.mem_filter.mpr ⟨he, ?_⟩, hp, hfe⟩)
      rw [Bool.and_eq_true_iff]
      constructor
      · rw [Bool.not_eq_eq_eq_not, Bool.not_true, beq_eq_false_iff_ne]
        rw [hp]
        exact hs
      · rw [Bool.not_eq_eq_eq_not, Bool.not_true, beq_eq_false_iff_ne]
        rw [hp]
        exact hd

theorem isDirAt_moveFile {fs : FS} {src dst p : Path} :
    isDirAt (moveFile fs src dst) p = true ↔
      (p ≠ src ∧ p ≠ dst ∧ isDirAt fs p = true) := by
  unfold moveFile
  rw [isDirAt_append]
  constructor
  · rintro (hf | ⟨_, hb⟩)
    · obtain ⟨e, he, hp, hfe⟩ := isDirAt_iff.mp hf
      obtain ⟨hin, hkeep⟩ := List.mem_filter.mp he
      rcases Bool.and_eq_true_iff.mp hkeep with ⟨h1, h2⟩
      rw [Bool.not_eq_eq_eq_not, Bool.not_true, beq_eq_false_iff_ne] at h1 h2
      exact ⟨hp ▸ h1, hp ▸ h2, isDirAt_iff.mpr ⟨e, hin, hp, hfe⟩⟩
    · exact absurd hb (by decide)
  · rintro ⟨hs, hd, hf⟩
    obtain ⟨e, he, hp, hfe⟩ := isDirAt_iff.mp hf
    refine Or.inl (isDirAt_iff.mpr ⟨e, List.mem_filter.mpr ⟨he, ?_⟩, hp, hfe⟩)
    rw [Bool.and_eq_true_iff]
    refine ⟨?_, ?_⟩
    · rw [Bool.not_eq_eq_eq_not, Bool.not_true, beq_eq_false_iff_ne, hp]
      exact hs
    · rw [Bool.not_eq_eq_eq_not, Bool.not_true, beq_eq_false_iff_ne, hp]
      exact hd

theorem isFileAt_removeEntry {fs : FS} {q p : Path} :
    isFileAt (removeEntry fs q) p = true ↔ (p ≠ q ∧ isFileAt fs p = true) := by
  unfold removeEntry
  rw [isFileAt_iff, isFileAt_iff]
  constructor
  · rintro ⟨e, he, hp, hf⟩
    obtain ⟨hin, hkeep⟩ := List.mem_filter.mp he
    rw [Bool.not_eq_eq_eq_not, Bool.not_true, beq_eq_false_iff_ne] at hkeep
    exact ⟨hp ▸ hkeep, ⟨e, hin, hp, hf⟩⟩
  · rintro ⟨hne, ⟨e, he, hp, hf⟩⟩
    refine ⟨e, List.mem_filter.mpr ⟨he, ?_⟩, hp, hf⟩
    rw [Bool.not_eq_eq_eq_not, Bool.not_true, beq_eq_false_iff_ne, hp]
    exact hne

theorem isDirAt_removeEntry {fs : FS} {q p : Path} :
    isDirAt (removeEntry fs q) p = true ↔ (p ≠ q ∧ isDirAt fs p = true) := by
  unfold removeEntry
  rw [isDirAt_iff, isDirAt_iff]
  constructor
  · rintro ⟨e, he, hp, hf⟩
    obtain ⟨hin, hkeep⟩ := List.mem_filter.mp he
    rw [Bool.not_eq_eq_eq_not, Bool.not_true, beq_eq_false_iff_ne] at hkeep
    exact ⟨hp ▸ hkeep, ⟨e, hin, hp, hf⟩⟩
  · rintro ⟨hne, ⟨e, he, hp, hf⟩⟩
    refine ⟨e, List.mem_filter.mpr ⟨he, ?_⟩, hp, hf⟩
    rw [Bool.not_eq_eq_eq_not, Bool.not_true, beq_eq_false_iff_ne, hp]
    exact hne

theorem Bool_eq_of_iff {a b : Bool} (h : a = true ↔ b = true) : a = b := by
  cases a with
  | true => exact (h.mp rfl).symm
  | false =>
    cases b with
    | true => exact absurd (h.mpr rfl) (by decide)
    | false => rfl

theorem isDirAt_append_file {fs : FS} {q p : Path} :
    isDirAt (fs ++ [⟨q, false⟩]) p = isDirAt fs p := by
  apply Bool_eq_of_iff
  rw [isDirAt_append]
  constructor
  · rintro (h | ⟨_, hb⟩)
    · exact h
    · exact absurd hb (by decide)
  · exact Or.inl

theorem isFileAt_append_dir {fs : FS} {q p : Path} :
    isFileAt (fs ++ [⟨q, true⟩]) p = isFileAt fs p := by
  apply Bool_eq_of_iff
  rw [isFileAt_append]
  constructor
  · rintro (h | ⟨_, hb⟩)
    · exact h
    · exact absurd hb (by decide)
  · exact Or.inl

theorem WF_nodup {fs : FS} (h : WF fs = true) : nodupPaths (pathsOf fs) = true :=
  (Bool.and_eq_true_iff.mp h).1

theorem WF_entry {fs : FS} (h : WF fs = true) {e : Entry} (he : e ∈ fs) :
    e.path ≠ [] ∧ ∀ q ∈ e.path.dropLast.inits, q = [] ∨ isDirAt fs q = true := by
  have h2 := (Bool.and_eq_true_iff.mp h).2
  rw [List.all_eq_true] at h2
  have he2 := h2 e he
  rcases Bool.and_eq_true_iff.mp he2 with ⟨h3, h4⟩
  rw [Bool.not_eq_eq_eq_not, Bool.not_true, beq_eq_false_iff_ne] at h3
  refine ⟨h3, ?_⟩
  intro q hq
  rw [List.all_eq_true] at h4
  have := h4 q hq
  rcases Bool.or_eq_true_iff.mp this with h5 | h5
  · exact Or.inl (beq_iff_eq.mp h5)
  · exact Or.inr h5

theorem WF_of {fs : FS} (hnd : nodupPaths (pathsOf fs) = true)
    (hent : ∀ e ∈ fs, e.path ≠ [] ∧
      ∀ q ∈ e.path.dropLast.inits, q = [] ∨ isDirAt fs q = true) : WF fs = true := by
  rw [WF, Bool.and_eq_true_iff]
  refine ⟨hnd, ?_⟩
  rw [List.all_eq_true]
  intro e he
  obtain ⟨h1, h2⟩ := hent e he
  rw [Bool.and_eq_true_iff]
  constructor
  · rw [Bool.not_eq_eq_eq_not, Bool.not_true, beq_eq_false_iff_ne]
    exact h1
  · rw [List.all_eq_true]
    intro q hq
    rw [Bool.or_eq_true_iff]
    rcases h2 q hq with h3 | h3
    · exact Or.inl (beq_iff_eq.mpr h3)
    · exact Or.inr h3

theorem length_one_dropLast {q : Path} (h : q.length = 1) : q.dropLast = [] := by
  obtain ⟨a, rfl⟩ := List.length_eq_one.mp h
  rfl

theorem existsPath_false_not_mem {fs : FS} {p : Path} (h : existsPath fs p = false) :
    p ∉ pathsOf fs := by
  intro hc
  obtain ⟨e, he, hp⟩ := mem_pathsOf.mp hc
  exact absurd (existsPath_iff_entry.mpr ⟨e, he, hp⟩) (by rw [h]; exact Bool.false_ne_true)

theorem WF_append {fs : FS} {q : Path} {b : Bool} (hwf : WF fs = true)
    (hlen : q.length = 1) (hfresh : existsPath fs q = false) :
    WF (fs ++ [⟨q, b⟩]) = true := by
  apply WF_of
  · rw [show pathsOf (fs ++ [⟨q, b⟩]) = pathsOf fs ++ [q] from by
      unfold pathsOf
      rw [List.map_append]
      rfl]
    rw [nodupPaths_iff, List.nodup_append]
    refine ⟨nodupPaths_iff.mp (WF_nodup hwf), List.nodup_singleton q, ?_⟩
    intro a ha hb
    rcases List.mem_singleton.mp hb with rfl
    exact existsPath_false_not_mem hfresh ha
  · intro e he
    rcases List.mem_append.mp he with he | he
    · obtain ⟨h1, h2⟩ := WF_entry hwf he
      refine ⟨h1, ?_⟩
      intro r hr
      rcases h2 r hr with h3 | h3
      · exact Or.inl h3
      · exact Or.inr (isDirAt_append.mpr (Or.inl h3))
    · rcases List.mem_singleton.mp he with rfl
      refine ⟨?_, ?_⟩
      · intro hc
        rw [show (⟨q, b⟩ : Entry).path = q from rfl] at hc
        rw [hc] at hlen
        exact absurd hlen (by decide)
      · intro r hr
        rw [show (⟨q, b⟩ : Entry).path = q from rfl, length_one_dropLast hlen] at hr
        rw [show (([] : Path)).inits = [[]] from rfl] at hr
        exact Or.inl (List.mem_singleton.mp hr)

theorem filter_sublist_nodup {fs : FS} (hnd : nodupPaths (pathsOf fs) = true)
    (g : Entry → Bool) : nodupPaths (pathsOf (fs.filter g)) = true := by
  rw [nodupPaths_iff]
  apply List.Nodup.sublist
  · exact List.Sublist.map _ (List.filter_sublist fs)
  · exact nodupPaths_iff.mp hnd

theorem pathsOf_filter_subset {fs : FS} {g : Entry → Bool} :
    pathsOf (fs.filter g) ⊆ pathsOf fs := by
  intro p hp
  obtain ⟨e, he, hpe⟩ := mem_pathsOf.mp hp
  exact mem_pathsOf.mpr ⟨e, (List.mem_filter.mp he).1, hpe⟩

theorem WF_moveFile {fs : FS} {src dst : Path} (hwf : WF fs = true)
    (hsrc : isFileAt fs src = true) (hfresh : existsPath fs dst = false)
    (hne : dst ≠ [])
    (hpre : ∀ q ∈ dst.dropLast.inits, q = [] ∨ isDirAt fs q = true) :
    WF (moveFile fs src dst) = true := by
  have hnd := WF_nodup hwf
  have hdirpres : ∀ r, isDirAt fs r = true → isDirAt (moveFile fs src dst) r = true := by
    intro r hr
    apply isDirAt_moveFile.mpr
    refine ⟨?_, ?_, hr⟩
    · intro hc
      rw [hc] at hr
      exact absurd hr (by rw [file_not_dir hnd hsrc]; exact Bool.false_ne_true)
    · intro hc
      rw [hc] at hr
      exact absurd (existsPath_or.mpr (Or.inr hr))
        (by rw [hfresh]; exact Bool.false_ne_true)
  apply WF_of
  · rw [show pathsOf (moveFile fs src dst) =
        pathsOf (fs.filter (fun e => !(e.path == src) && !(e.path == dst))) ++ [dst] from by
      unfold moveFile pathsOf
      rw [List.map_append]
      rfl]
    rw [nodupPaths_iff, List.nodup_append]
    refine ⟨nodupPaths_iff.mp (filter_sublist_nodup hnd _), List.nodup_singleton dst, ?_⟩
    intro a ha hb
    rcases List.mem_singleton.mp hb with rfl
    exact existsPath_false_not_mem hfresh (pathsOf_filter_subset ha)
  · intro e he
    rcases List.mem_append.mp he with he | he
    · obtain ⟨hin, _⟩ := List.mem_filter.mp he
      obtain ⟨h1, h2⟩ := WF_entry hwf hin
      refine ⟨h1, ?_⟩
      intro r hr
      rcases h2 r hr with h3 | h3
      · exact Or.inl h3
      · exact Or.inr (hdirpres r h3)
    · rcases List.mem_singleton.mp he with rfl
      refine ⟨hne, ?_⟩
      intro r hr
      rcases hpre r hr with h3 | h3
      · exact Or.inl h3
      · exact Or.inr (hdirpres r h3)

theorem existsPath_moveFile {fs : FS} {src dst p : Path} :
    existsPath (moveFile fs src dst) p = true ↔
      (p = dst ∨ (p ≠ src ∧ p ≠ dst ∧ existsPath fs p = true)) := by
  rw [existsPath_or, isFileAt_moveFile, isDirAt_moveFile, existsPath_or]
  constructor
  · rintro ((h | ⟨h1, h2, h3⟩) | ⟨h1, h2, h3⟩)
    · exact Or.inl h
    · exact Or.inr ⟨h1, h2, Or.inl h3⟩
    · exact Or.inr ⟨h1, h2, Or.inr h3⟩
  · rintro (h | ⟨h1, h2, h3 | h3⟩)
    · exact Or.inl (Or.inl h)
    · exact Or.inl (Or.inr ⟨h1, h2, h3⟩)
    · exact Or.inr ⟨h1, h2, h3⟩

theorem Evolves.append {fs fs1 fs2 : FS} {a b : List OpRec}
    (h1 : Evolves fs a fs1) (h2 : Evolves fs1 b fs2) : Evolves fs (a ++ b) fs2 := by
  induction h1 with
  | refl => exact h2
  | mkdir p hl hlog hfresh _ ih => exact Evolves.mkdir p hl hlog hfresh (ih h2)
  | step r hold hnew hlen hdir hlog _ ih =>
    exact Evolves.step r hold hnew hlen hdir hlog (ih h2)

theorem length_one_inits {q : Path} (h : q.length = 1) : q.inits = [[], q] := by
  obtain ⟨a, rfl⟩ := List.length_eq_one.mp h
  rfl

theorem step_move_WF {fs : FS} {r : OpRec} (hwf : WF fs = true)
    (hold : isFileAt fs r.old = true) (hnew : existsPath fs r.new = false)
    (hlen : r.new.length = 2) (hdir : isDirAt fs r.new.dropLast = true) :
    WF (moveFile fs r.old r.new) = true := by
  apply WF_moveFile hwf hold hnew
  · intro hc
    rw [hc] at hlen
    exact absurd hlen (by decide)
  · intro q hq
    have hdl : r.new.dropLast.length = 1 := by
      rw [List.length_dropLast, hlen]
    rw [length_one_inits hdl] at hq
    rcases List.mem_cons.mp hq with rfl | hq
    · exact Or.inl rfl
    · rcases List.mem_singleton.mp hq with rfl
      exact Or.inr hdir

theorem Evolves.wf {fs fs2 : FS} {ops : List OpRec} (h : Evolves fs ops fs2)
    (hwf : WF fs = true) : WF fs2 = true := by
  induction h with
  | refl => exact hwf
  | mkdir p hl hlog hfresh _ ih => exact ih (WF_append hwf hl hfresh)
  | step r hold hnew hlen hdir hlog _ ih =>
    exact ih (step_move_WF hwf hold hnew hlen hdir)

theorem Evolves.dirMono {fs fs2 : FS} {ops : List OpRec} (h : Evolves fs ops fs2)
    (hwf : WF fs = true) : ∀ q, isDirAt fs q = true → isDirAt fs2 q = true := by
  induction h with
  | refl => exact fun q hq => hq
  | mkdir p hl hlog hfresh _ ih =>
    intro q hq
    exact ih (WF_append hwf hl hfresh) q (isDirAt_append.mpr (Or.inl hq))
  | step r hold hnew hlen hdir hlog _ ih =>
    intro q hq
    apply ih (step_move_WF hwf hold hnew hlen hdir) q
    apply isDirAt_moveFile.mpr
    refine ⟨?_, ?_, hq⟩
    · intro hc
      rw [hc] at hq
      exact absurd hq (by rw [file_not_dir (WF_nodup hwf) hold]; exact Bool.false_ne_true)
    · intro hc
      rw [hc] at hq
      exact absurd (existsPath_or.mpr (Or.inr hq))
        (by rw [hnew]; exact Bool.false_ne_true)

theorem logPath_length : logPath.length = 1 := rfl

theorem Evolves.logFree {fs fs2 : FS} {ops : List OpRec} (h : Evolves fs ops fs2)
    (hfree : existsPath fs logPath = false) : existsPath fs2 logPath = false := by
  induction h with
  | refl => exact hfree
  | mkdir p hl hlog hfresh _ ih =>
    apply ih
    rw [Bool.eq_false_iff]
    intro hc
    rcases existsPath_append.mp hc with hc | hc
    · exact absurd hc (by rw [hfree]; exact Bool.false_ne_true)
    · exact hlog hc.symm
  | step r hold hnew hlen hdir hlog _ ih =>
    apply ih
    rw [Bool.eq_false_iff]
    intro hc
    rcases existsPath_moveFile.mp hc with hc | ⟨_, _, hc⟩
    · rw [← hc] at hlen
      exact absurd hlen (by decide)
    · exact absurd hc (by rw [hfree]; exact Bool.false_ne_true)

/-- Every recorded move of an evolution has a non-log original path, a
length-2 destination, and original parent directories that are
directories of the final filesystem. -/

theorem Evolves.recsGood {fs fs2 : FS} {ops : List OpRec} (h : Evolves fs ops fs2)
    (hwf : WF fs = true) : ∀ r ∈ ops,
      r.old ≠ logPath ∧ r.new.length = 2 ∧
      (∀ q ∈ r.old.dropLast.inits, q = [] ∨ isDirAt fs2 q = true) := by
  induction h with
  | refl =>
    intro r hr
    exact absurd hr (List.not_mem_nil r)
  | mkdir p hl hlog hfresh _ ih =>
    exact ih (WF_append hwf hl hfresh)
  | step r hold hnew hlen hdir hlog htail ih =>
    intro s hs
    have hwf2 := step_move_WF hwf hold hnew hlen hdir
    rcases List.mem_cons.mp hs with rfl | hs
    · refine ⟨hlog, hlen, ?_⟩
      intro q hq
      obtain ⟨e, he, hep, _⟩ := isFileAt_iff.mp hold
      obtain ⟨_, hpre⟩ := WF_entry hwf he
      rw [hep] at hpre
      rcases hpre q hq with h3 | h3
      · exact Or.inl h3
      · refine Or.inr (htail.dirMono hwf2 q ?_)
        apply isDirAt_moveFile.mpr
        refine ⟨?_, ?_, h3⟩
        · intro hc
          rw [hc] at h3
          exact absurd h3
            (by rw [file_not_dir (WF_nodup hwf) hold]; exact Bool.false_ne_true)
        · intro hc
          rw [hc] at h3
          exact absurd (existsPath_or.mpr (Or.inr h3))
            (by rw [hnew]; exact Bool.false_ne_true)
    · exact ih hwf2 s hs

theorem not_ignored_name_ne_log {nm : String} {user : List String}
    (h : should_ignore nm (logName :: user) = false) : nm ≠ logName := by
  intro hc
  subst hc
  unfold should_ignore at h
  rw [if_pos (by decide : matchesPattern logName logName = true)] at h
  exact absurd h (by decide)

theorem organize_file_evolves (cfg : Cfg) (hlive : cfg.dryRun = false)
    (hcat : ∀ ext, get_category cfg.categories ext ≠ logName)
    (st : OState) (p : Path) (hplog : p ≠ logPath) (st2 : OState) (b : Bool)
    (h : organize_file cfg st p = some (st2, b)) :
    ∃ d : List OpRec, st2.ops = st.ops ++ d ∧ Evolves st.fs d st2.fs := by
  unfold organize_file at h
  rw [hlive] at h
  simp only [Bool.false_eq_true, if_false] at h
  split at h
  · exact absurd h (by simp)
  · rename_i fs1 hmk
    have hmkdir : fs1 = st.fs ∨
        (fs1 = st.fs ++ [⟨[get_category cfg.categories (pySuffix (nameOf p))], true⟩] ∧
          existsPath st.fs [get_category cfg.categories (pySuffix (nameOf p))] = false) := by
      split at hmk
      · exact Or.inl (Option.some.inj hmk).symm
      · split at hmk
        · exact absurd hmk (by simp)
        · rename_i h1 h2
          exact Or.inr ⟨(Option.some.inj hmk).symm, Bool.eq_false_iff.mpr h2⟩
    have hev1 : ∀ d fs9, Evolves fs1 d fs9 → Evolves st.fs d fs9 := by
      intro d fs9 hd
      rcases hmkdir with rfl | ⟨hf, hfresh⟩
      · exact hd
      · rw [hf] at hd
        refine Evolves.mkdir _ ?_ ?_ hfresh hd
        · rfl
        · intro hc
          have := hcat (pySuffix (nameOf p))
          apply this
          have := List.cons.inj hc
          exact this.1
    split at h
    · exact absurd h (by simp)
    · rename_i newNm halloc
      split at h
      · rename_i hfail
        have hpair := Option.some.inj h
        injection hpair with hst hb
        subst hst
        exact ⟨[], by simp, hev1 [] fs1 (Evolves.refl fs1)⟩
      · rename_i hok
        have hpair := Option.some.inj h
        injection hpair with hst hb
        subst hst
        have hfile : isFileAt fs1 p = true := by
          rcases Bool.or_eq_false_iff.mp (Bool.not_eq_true _ ▸ Bool.eq_false_iff.mpr hok :
            (!isFileAt fs1 p || cfg.moveFail p
              [get_category cfg.categories (pySuffix (nameOf p)), newNm]) = false) with ⟨h1, _⟩
          rw [Bool.not_eq_eq_eq_not, Bool.not_false] at h1
          exact h1
        refine ⟨[⟨p, [get_category cfg.categories (pySuffix (nameOf p)), newNm], st.clock⟩],
          by simp, hev1 _ _ ?_⟩
        refine Evolves.step _ hfile (allocate_sound fs1 _ _ newNm halloc) rfl ?_ hplog
          (Evolves.refl _)
        rw [show ([get_category cfg.categories (pySuffix (nameOf p)), newNm] :
          Path).dropLast = [get_category cfg.categories (pySuffix (nameOf p))] from rfl]
        split at hmk
        · rename_i hd
          rw [← Option.some.inj hmk]
          exact hd
        · split at hmk
          · exact absurd hmk (by simp)
          · rw [← Option.some.inj hmk]
            exact isDirAt_append.mpr (Or.inr ⟨rfl, rfl⟩)

theorem organizeItemsF_evolves (cfg : Cfg) (hlive : cfg.dryRun = false)
    (hcat : ∀ ext, get_category cfg.categories ext ≠ logName) :
    ∀ fuel items st cd st2 n, organizeItemsF cfg fuel st cd items = some (st2, n) →
      ∃ d, st2.ops = st.ops ++ d ∧ Evolves st.fs d st2.fs := by
  intro fuel
  induction fuel with
  | zero =>
    intro items st cd st2 n h
    exact absurd h (by simp [organizeItemsF])
  | succ fuel ih =>
    intro items st cd st2 n h
    cases items with
    | nil =>
      unfold organizeItemsF at h
      injection (Option.some.inj h) with hst _
      subst hst
      exact ⟨[], by simp, Evolves.refl _⟩
    | cons e rest =>
      unfold organizeItemsF at h
      split at h
      · split at h
        · exact ih rest st cd st2 n h
        · split at h
          · split at h
            · exact absurd h (by simp)
            · rename_i w1 m1 hdirf
              split at h
              · exact absurd h (by simp)
              · rename_i w2 m2 hrest
                injection (Option.some.inj h) with hst _
                subst hst
                obtain ⟨d1, hops1, hev1⟩ := ih _ _ _ _ _ hdirf
                obtain ⟨d2, hops2, hev2⟩ := ih _ _ _ _ _ hrest
                exact ⟨d1 ++ d2, by rw [hops2, hops1, List.append_assoc],
                  hev1.append hev2⟩
          · exact ih rest st cd st2 n h
      · split at h
        · exact ih rest st cd st2 n h
        · rename_i hig
          split at h
          · exact absurd h (by simp)
          · rename_i w1 ok horg
            split at h
            · exact absurd h (by simp)
            · rename_i w2 m2 hrest
              injection (Option.some.inj h) with hst _
              subst hst
              have hplog : e.path ≠ logPath := by
                intro hc
                apply @not_ignored_name_ne_log (nameOf e.path)
                  (ignoreName :: cfg.userPatterns)
                  (by rw [← Bool.eq_false_iff.mpr hig]; rfl)
                rw [hc]
                rfl
              obtain ⟨d1, hops1, hev1⟩ :=
                organize_file_evolves cfg hlive hcat st e.path hplog _ _ horg
              obtain ⟨d2, hops2, hev2⟩ := ih _ _ _ _ _ hrest
              exact ⟨d1 ++ d2, by rw [hops2, hops1, List.append_assoc], hev1.append hev2⟩

theorem existsPath_false_of {fs : FS} {p : Path} (h1 : isFileAt fs p = false)
    (h2 : isDirAt fs p = false) : existsPath fs p = false := by
  rw [Bool.eq_false_iff]
  intro hc
  rcases existsPath_or.mp hc with hc | hc
  · exact absurd hc (by rw [h1]; exact Bool.false_ne_true)
  · exact absurd hc (by rw [h2]; exact Bool.false_ne_true)

theorem isFileAt_existsPath {fs : FS} {p : Path} (h : isFileAt fs p = true) :
    existsPath fs p = true := existsPath_or.mpr (Or.inl h)

theorem mkdirsAux_all_dirs {fs : FS} : ∀ qs : List Path,
    (∀ q ∈ qs, isDirAt fs q = true) → mkdirsAux fs qs = (fs, true) := by
  intro qs
  induction qs with
  | nil => intro _; rfl
  | cons q rest ih =>
    intro h
    unfold mkdirsAux
    rw [if_pos (h q (List.mem_cons_self q rest))]
    exact ih (fun r hr => h r (List.mem_cons_of_mem q hr))

theorem mkdirParents_noop {fs : FS} {p : Path}
    (h : ∀ q ∈ p.inits, q = [] ∨ isDirAt fs q = true) :
    mkdirParents fs p = (fs, true) := by
  unfold mkdirParents
  apply mkdirsAux_all_dirs
  intro q hq
  obtain ⟨hin, hkeep⟩ := List.mem_filter.mp hq
  rcases h q hin with rfl | hd
  · exact absurd hkeep (by decide)
  · exact hd

theorem restoreStep_success {rf : OpRec → Bool} {W1 : FS} {c1 : Nat} {r : OpRec}
    (hex : existsPath W1 r.new = true)
    (hmk : mkdirParents W1 r.old.dropLast = (W1, true))
    (hrf : rf r = false)
    (hnd : isDirAt W1 r.old = false) :
    restoreStep rf W1 c1 r = (moveFile W1 r.new r.old, c1 + 1) := by
  unfold restoreStep
  rw [hex]
  simp only [Bool.not_true, Bool.false_eq_true, if_false, hmk, Bool.not_false,
    Bool.true_eq_false, hrf, hnd]

theorem restoresLoop_single (rf : OpRec → Bool) (fs : FS) (c : Nat) (r : OpRec) :
    restoresLoop rf fs c [r] = restoreStep rf fs c r := rfl

/-- Replaying an evolution's records in reverse restores the original
file set (plus the log file), leaves the directory set untouched, keeps
well-formedness, and counts every record as restored — provided no
record's original path has become a directory and no failures are
injected. -/

theorem undo_restores (rf : OpRec → Bool) {recs : List OpRec} {fsA fsB : FS}
    (hev : Evolves fsA recs fsB) :
    ∀ (W : FS) (c : Nat), WF fsA = true → WF W = true →
      (∀ p, isFileAt W p = true ↔ (isFileAt fsB p = true ∨ p = logPath)) →
      (∀ r ∈ recs, rf r = false) →
      (∀ r ∈ recs, isDirAt W r.old = false) →
      (∀ r ∈ recs, ∀ q ∈ r.old.dropLast.inits, q = [] ∨ isDirAt W q = true) →
      (∀ p, isFileAt (restoresLoop rf W c recs.reverse).1 p = true ↔
        (isFileAt fsA p = true ∨ p = logPath))
      ∧ (∀ p, isDirAt (restoresLoop rf W c recs.reverse).1 p = isDirAt W p)
      ∧ WF (restoresLoop rf W c recs.reverse).1 = true
      ∧ (restoresLoop rf W c recs.reverse).2 = c + recs.length := by
  induction hev with
  | refl fs =>
    intro W c _ hwfW hfiles _ _ _
    exact ⟨hfiles, fun p => rfl, hwfW, rfl⟩
  | mkdir p hl hlog hfresh htail ih =>
    intro W c hwfA hwfW hfiles hrf hnodir hpre
    obtain ⟨f1, f2, f3, f4⟩ := ih W c (WF_append hwfA hl hfresh) hwfW hfiles hrf hnodir hpre
    refine ⟨?_, f2, f3, f4⟩
    intro q
    rw [f1 q, isFileAt_append_dir]
  | step r hold hnew hlen hdir hlog htail ih =>
    rename_i fsX fs2X opsX
    intro W c hwfA hwfW hfiles hrf hnodir hpre
    have hwfA2 := step_move_WF hwfA hold hnew hlen hdir
    obtain ⟨f1, f2, f3, f4⟩ := ih W c hwfA2 hwfW hfiles
      (fun s hs => hrf s (List.mem_cons_of_mem r hs))
      (fun s hs => hnodir s (List.mem_cons_of_mem r hs))
      (fun s hs => hpre s (List.mem_cons_of_mem r hs))
    rw [List.reverse_cons, restoresLoop_append, restoresLoop_single]
    have hold_ne_new : r.old ≠ r.new := by
      intro hc
      rw [hc] at hold
      exact absurd (isFileAt_existsPath hold)
        (by rw [hnew]; exact Bool.false_ne_true)
    have hnew_ne_log : r.new ≠ logPath := by
      intro hc
      rw [hc] at hlen
      exact absurd hlen (by decide)
    have hnewW1 : isFileAt (restoresLoop rf W c opsX.reverse).1 r.new = true := by
      rw [f1 r.new]
      exact Or.inl (isFileAt_moveFile.mpr (Or.inl rfl))
    have hoW1dir : isDirAt (restoresLoop rf W c opsX.reverse).1 r.old = false := by
      rw [f2 r.old]
      exact hnodir r (List.mem_cons_self r opsX)
    have holdW1file : isFileAt (restoresLoop rf W c opsX.reverse).1 r.old = false := by
      rw [Bool.eq_false_iff]
      intro hc
      rcases (f1 r.old).mp hc with hc | hc
      · rcases isFileAt_moveFile.mp hc with hc | ⟨hc1, _, _⟩
        · exact hold_ne_new hc
        · exact hc1 rfl
      · exact hlog hc
    have hstep : restoreStep rf (restoresLoop rf W c opsX.reverse).1
        (restoresLoop rf W c opsX.reverse).2 r =
        (moveFile (restoresLoop rf W c opsX.reverse).1 r.new r.old,
         (restoresLoop rf W c opsX.reverse).2 + 1) := by
      apply restoreStep_success
      · exact isFileAt_existsPath hnewW1
      · apply mkdirParents_noop
        intro q hq
        rcases hpre r (List.mem_cons_self r opsX) q hq with h3 | h3
        · exact Or.inl h3
        · rw [f2 q]
          exact Or.inr h3
      · exact hrf r (List.mem_cons_self r opsX)
      · exact hoW1dir
    rw [hstep]
    have hnfAfile : isFileAt fsX r.new = false := by
      rw [Bool.eq_false_iff]
      intro hc
      exact absurd (isFileAt_existsPath hc) (by rw [hnew]; exact Bool.false_ne_true)
    have hold_ne_nil : r.old ≠ [] := by
      obtain ⟨e, he, hep, _⟩ := isFileAt_iff.mp hold
      have := (WF_entry hwfA he).1
      rw [hep] at this
      exact this
    refine ⟨?_, ?_, ?_, ?_⟩
    · intro q
      rw [isFileAt_moveFile]
      by_cases hqo : q = r.old
      · subst hqo
        constructor
        · intro _
          exact Or.inl hold
        · intro _
          exact Or.inl rfl
      · by_cases hqn : q = r.new
        · subst hqn
          constructor
          · rintro (hc | ⟨hc, _, _⟩)
            · exact absurd hc (Ne.symm hold_ne_new)
            · exact absurd rfl hc
          · rintro (hc | hc)
            · exact absurd hc (by rw [hnfAfile]; exact Bool.false_ne_true)
            · exact absurd hc hnew_ne_log
        · constructor
          · rintro (hc | ⟨_, _, hc⟩)
            · exact absurd hc hqo
            · rcases (f1 q).mp hc with hc | hc
              · rcases isFileAt_moveFile.mp hc with hc | ⟨_, _, hc⟩
                · exact absurd hc hqn
                · exact Or.inl hc
              · exact Or.inr hc
          · intro hc
            refine Or.inr ⟨hqn, hqo, ?_⟩
            rw [f1 q]
            rcases hc with hc | hc
            · exact Or.inl (isFileAt_moveFile.mpr (Or.inr ⟨hqo, hqn, hc⟩))
            · exact Or.inr hc
    · intro q
      apply Bool_eq_of_iff
      rw [isDirAt_moveFile, f2 q]
      constructor
      · rintro ⟨_, _, hc⟩
        exact hc
      · intro hc
        refine ⟨?_, ?_, hc⟩
        · intro hqn
          subst hqn
          rw [← f2 r.new] at hc
          exact absurd hc
            (by rw [file_not_dir (WF_nodup f3) hnewW1]; exact Bool.false_ne_true)
        · intro hqo
          subst hqo
          exact absurd hc
            (by rw [hnodir r (List.mem_cons_self r opsX)]; exact Bool.false_ne_true)
    · apply WF_moveFile f3 hnewW1
      · exact existsPath_false_of holdW1file hoW1dir
      · exact hold_ne_nil
      · intro q hq
        rcases hpre r (List.mem_cons_self r opsX) q hq with h3 | h3
        · exact Or.inl h3
        · rw [f2 q]
          exact Or.inr h3
    · rw [f4, List.length_cons]
      omega

theorem removeEntry_dir_files {fs : FS} {q : Path}
    (hnd : nodupPaths (pathsOf fs) = true) (hdir : isDirAt fs q = true) :
    ∀ p, isFileAt (removeEntry fs q) p = isFileAt fs p := by
  intro p
  apply Bool_eq_of_iff
  rw [isFileAt_removeEntry]
  constructor
  · rintro ⟨_, h⟩
    exact h
  · intro h
    refine ⟨?_, h⟩
    intro hc
    subst hc
    exact absurd hdir (by rw [file_not_dir hnd h]; exact Bool.false_ne_true)

theorem nodupPaths_removeEntry {fs : FS} {q : Path}
    (hnd : nodupPaths (pathsOf fs) = true) :
    nodupPaths (pathsOf (removeEntry fs q)) = true :=
  filter_sublist_nodup hnd _

theorem cleanupGo_files {fs : FS} {items : List Entry}
    (hnd : nodupPaths (pathsOf fs) = true) :
    ∀ p, isFileAt (cleanupGo fs items) p = isFileAt fs p := by
  induction items generalizing fs with
  | nil => intro p; rfl
  | cons e rest ih =>
    intro p
    unfold cleanupGo
    split
    · rename_i hcond
      rcases Bool.and_eq_true_iff.mp hcond with ⟨hdir, _⟩
      rw [ih (nodupPaths_removeEntry hnd) p, removeEntry_dir_files hnd hdir p]
    · exact ih hnd p

theorem childrenOf_removeEntry_ne {fs : FS} {q d : Path} (h : q.dropLast ≠ d) :
    childrenOf (removeEntry fs q) d = childrenOf fs d := by
  unfold childrenOf removeEntry
  rw [List.filter_filter]
  apply List.filter_congr
  intro e _
  by_cases hq : e.path = q
  · have hdl : (List.dropLast e.path == d) = false := by
      rw [beq_eq_false_iff_ne, hq]
      exact h
    simp [hdl]
  · have hne : (e.path == q) = false := by
      rw [beq_eq_false_iff_ne]
      exact hq
    simp [hne]

theorem isDirAt_cleanupGo {fs : FS} {items : List Entry} {p : Path} :
    isDirAt (cleanupGo fs items) p = true → isDirAt fs p = true := by
  induction items generalizing fs with
  | nil => exact fun h => h
  | cons e rest ih =>
    intro h
    unfold cleanupGo at h
    split at h
    · exact ((isDirAt_removeEntry).mp (ih h)).2
    · exact ih h

/-- After the cleanup pass every remaining root-level directory has a
child. -/

theorem cleanupGo_no_empty {items : List Entry} :
    ∀ fs : FS,
      (∀ e ∈ items, e.path.dropLast = []) →
      (∀ p, isDirAt fs p = true → p.dropLast = [] → p ≠ [] →
        (p ∈ items.map (fun e => e.path) ∨ childrenOf fs p ≠ [])) →
      ∀ p, isDirAt (cleanupGo fs items) p = true → p.dropLast = [] → p ≠ [] →
        childrenOf (cleanupGo fs items) p ≠ [] := by
  induction items with
  | nil =>
    intro fs _ hinv p hdir hroot hne
    rcases hinv p hdir hroot hne with hc | hc
    · exact absurd hc (List.not_mem_nil p)
    · exact hc
  | cons e rest ih =>
    intro fs hitems hinv p hdir hroot hne
    unfold cleanupGo at hdir ⊢
    by_cases hcond : (isDirAt fs e.path && (childrenOf fs e.path).isEmpty) = true
    · rw [if_pos hcond] at hdir ⊢
      refine ih (removeEntry fs e.path)
        (fun s hs => hitems s (List.mem_cons_of_mem e hs)) ?_ p hdir hroot hne
      intro q hq hqroot hqne
      obtain ⟨hqe, hqdir⟩ := isDirAt_removeEntry.mp hq
      rcases hinv q hqdir hqroot hqne with hc | hc
      · rw [List.map_cons] at hc
        rcases List.mem_cons.mp hc with hc | hc
        · exact absurd hc hqe
        · exact Or.inl hc
      · refine Or.inr ?_
        rw [childrenOf_removeEntry_ne]
        · exact hc
        · rw [hitems e (List.mem_cons_self e rest)]
          exact Ne.symm hqne
    · rw [if_neg hcond] at hdir ⊢
      refine ih fs (fun s hs => hitems s (List.mem_cons_of_mem e hs)) ?_ p hdir hroot hne
      intro q hq hqroot hqne
      rcases hinv q hq hqroot hqne with hc | hc
      · rw [List.map_cons] at hc
        rcases List.mem_cons.mp hc with hc | hc
        · subst hc
          refine Or.inr ?_
          intro hemp
          apply hcond
          rw [Bool.and_eq_true_iff]
          exact ⟨hq, by rw [hemp]; rfl⟩
        · exact Or.inl hc
      · exact Or.inr hc

theorem cleanup_no_empty {fs : FS} :
    ∀ p, isDirAt (cleanupEmptyRootDirs fs) p = true → p.dropLast = [] → p ≠ [] →
      childrenOf (cleanupEmptyRootDirs fs) p ≠ [] := by
  apply cleanupGo_no_empty fs
  · intro e he
    have := (List.mem_filter.mp he).2
    rcases Bool.and_eq_true_iff.mp this with ⟨_, h2⟩
    exact beq_iff_eq.mp h2
  · intro p hdir hroot hne
    obtain ⟨e, he, hep, hed⟩ := isDirAt_iff.mp hdir
    refine Or.inl (List.mem_map.mpr ⟨e, ?_, hep⟩)
    apply List.mem_filter.mpr
    refine ⟨he, ?_⟩
    rw [Bool.and_eq_true_iff]
    constructor
    · rw [Bool.not_eq_eq_eq_not, Bool.not_true, beq_eq_false_iff_ne]
      rw [hep]
      exact hne
    · rw [hep]
      exact beq_iff_eq.mpr hroot

theorem get_category_mem (cats : List (String × List String)) (ext : String) :
    get_category cats ext = "Others" ∨ get_category cats ext ∈ cats.map Prod.fst := by
  unfold get_category
  cases h : cats.find? (fun ce => ce.2.contains (pyLower ext)) with
  | none => exact Or.inl rfl
  | some c => exact Or.inr (List.mem_map.mpr ⟨c, List.mem_of_find?_eq_some h, rfl⟩)

/-- C1 counterexample: on a root holding a plain file named `Images` and
a `photo.jpg`, the live run moves both (the `Images` file to
`Others/Images`, then `photo.jpg` into a freshly created `Images`
directory); on undo, `shutil.move` finds the original path `Images`
occupied by that directory and moves the file inside it, so after undo no
file sits at the moved file's exact original path `["Images"]` — it ends
at `["Images", "Images"]` instead. -/

theorem claim_C1_counterexample :
    ((runOrganize c1cfg ⟨c1fs, none⟩).bind (fun r =>
      some (((r.2.1.ops.map (fun o => o.old)).contains ["Images"] : Bool),
            isFileAt (undoRun (fun _ => false) false r.1).1.fs ["Images"],
            isFileAt (undoRun (fun _ => false) false r.1).1.fs ["Images", "Images"])))
      = some (true, false, true) := by decide

/-- C1 amended: for a well-formed directory state with no stale log, when
a live run whose category names avoid the log file name records at least
one move and — the amendment the counterexample forces — no recorded
original path has become a directory by undo time, undoing restores the
file set exactly (every moved file back at its original path and nothing
else changed), leaves no empty root-level (category) folder behind,
deletes the log file, and reports every record restored. -/

theorem claim_C1_amended (cfg : Cfg) (fs0 : FS) (w1 : World) (st : OState) (n : Nat)
    (w2 : World) (res : UndoResult)
    (hlive : cfg.dryRun = false)
    (hwf : WF fs0 = true)
    (hnolog : existsPath fs0 logPath = false)
    (hcat : ∀ ext, get_category cfg.categories ext ≠ logName)
    (hrun : runOrganize cfg ⟨fs0, none⟩ = some (w1, st, n))
    (hops : st.ops ≠ [])
    (hnodirold : ∀ r ∈ st.ops, isDirAt w1.fs r.old = false)
    (hundo : undoRun (fun _ => false) false w1 = (w2, res)) :
    (∀ p, isFileAt w2.fs p = isFileAt fs0 p)
    ∧ (∀ c : String, isDirAt w2.fs [c] = true → childrenOf w2.fs [c] ≠ [])
    ∧ w2.log = none
    ∧ existsPath w2.fs logPath = false
    ∧ res = UndoResult.done st.ops.length := by
  unfold runOrganize at hrun
  split at hrun
  · exact absurd hrun (by simp)
  · rename_i s0 n0 hdirf
    rw [hlive] at hrun
    simp only [Bool.false_or] at hrun
    split at hrun
    · rename_i hemp
      injection (Option.some.inj hrun) with hw1 hrest
      injection hrest with hst hn
      subst hst
      exact absurd (List.isEmpty_eq_true.mp hemp) hops
    · rename_i hemp
      injection (Option.some.inj hrun) with hw1 hrest
      injection hrest with hst hn
      subst hst
      unfold organizeDirF at hdirf
      obtain ⟨d, hopsd, hev⟩ := organizeItemsF_evolves cfg hlive hcat _ _ _ _ _ _ hdirf
      rw [List.nil_append] at hopsd
      subst hopsd
      have hwfB : WF s0.fs = true := hev.wf hwf
      have hlogB : existsPath s0.fs logPath = false := hev.logFree hnolog
      rw [if_neg (by rw [hlogB]; exact Bool.false_ne_true)] at hw1
      subst hw1
      have hwfW : WF (s0.fs ++ [⟨logPath, false⟩]) = true :=
        WF_append hwfB logPath_length hlogB
      have hfilesW : ∀ p, isFileAt (s0.fs ++ [⟨logPath, false⟩]) p = true ↔
          (isFileAt s0.fs p = true ∨ p = logPath) := by
        intro p
        rw [isFileAt_append]
        constructor
        · rintro (h | ⟨h, _⟩)
          · exact Or.inl h
          · exact Or.inr h
        · rintro (h | h)
          · exact Or.inl h
          · exact Or.inr ⟨h, rfl⟩
      have hgood := hev.recsGood hwf
      unfold undoRun at hundo
      simp only at hundo
      rw [if_neg (by
        rw [List.isEmpty_eq_true]
        exact hops)] at hundo
      obtain ⟨f1, f2, f3, f4⟩ := undo_restores (fun _ => false) hev
        (s0.fs ++ [⟨logPath, false⟩]) 0 hwf hwfW hfilesW
        (fun r _ => rfl)
        (fun r hr => hnodirold r hr)
        (fun r hr q hq => by
          rcases (hgood r hr).2.2 q hq with h3 | h3
          · exact Or.inl h3
          · rw [isDirAt_append_file]
            exact Or.inr h3)
      injection hundo with hw2 hres
      subst hw2
      subst hres
      set RL := restoresLoop (fun _ => false) (s0.fs ++ [⟨logPath, false⟩]) 0
        s0.ops.reverse with hRL
      have hndRL : nodupPaths (pathsOf RL.1) = true := WF_nodup f3
      refine ⟨?_, ?_, rfl, existsPath_removeEntry_self _ _, ?_⟩
      · intro p
        apply Bool_eq_of_iff
        rw [isFileAt_removeEntry]
        rw [show isFileAt (cleanupEmptyRootDirs RL.1) p = isFileAt RL.1 p from
          cleanupGo_files hndRL p]
        constructor
        · rintro ⟨hne, hf⟩
          rcases (f1 p).mp hf with h | h
          · exact h
          · exact absurd h hne
        · intro hf
          refine ⟨?_, (f1 p).mpr (Or.inl hf)⟩
          intro hc
          subst hc
          exact absurd hf (by rw [show isFileAt fs0 logPath = false from
            Bool.eq_false_iff.mpr (fun hcc => absurd (isFileAt_existsPath hcc)
              (by rw [hnolog]; exact Bool.false_ne_true))]; exact Bool.false_ne_true)
      · intro c hdirc
        obtain ⟨hnec, hdirc2⟩ := isDirAt_removeEntry.mp hdirc
        have hch := cleanup_no_empty [c] hdirc2 rfl (List.cons_ne_nil c [])
        rw [childrenOf_removeEntry_ne (show logPath.dropLast ≠ [c] from by
          rw [show logPath.dropLast = ([] : Path) from rfl]
          exact Ne.symm (List.cons_ne_nil c []))]
        exact hch
      · rw [f4, Nat.zero_add]

/-- C1 amended witness: a single-file round trip restores the file and
deletes the log. -/

theorem claim_C1_amended_witness :
    isFileAt (⟨[⟨["photo.jpg"], false⟩], none⟩ : World).fs ["photo.jpg"] =
      isFileAt c1wfs ["photo.jpg"]
    ∧ (⟨[⟨["photo.jpg"], false⟩], none⟩ : World).log = none
    ∧ UndoResult.done 1 = UndoResult.done c1wState.ops.length := by
  have hcat : ∀ ext, get_category DEFAULT_CATEGORIES ext ≠ logName := by
    intro ext
    rcases get_category_mem DEFAULT_CATEGORIES ext with h | h
    · rw [h]
      decide
    · intro hc
      rw [hc] at h
      revert h
      decide
  have h := claim_C1_amended c1wcfg c1wfs c1wWorld c1wState 1
    ⟨[⟨["photo.jpg"], false⟩], none⟩ (UndoResult.done 1)
    rfl (by decide) (by decide) hcat (by decide) (by decide) (by decide) (by decide)
  exact ⟨h.1 ["photo.jpg"], h.2.2.1, h.2.2.2.2⟩

end FileOrg
